/-
Verification of the core claims about the ese_parser repository: a read-only
parser for ESE (Extensible Storage Engine) database files.

The development shallowly embeds the relevant parts of the Rust source:
  * src/lib/src/parser/reader.rs   (pager, catalog walk, long-value index,
                                    record decoder)
  * src/lib/src/ese_parser.rs      (cursor API: move_row and friends)

Machine integers are modelled as `Nat`; where the source performs unsigned
wrapping arithmetic this is made explicit (see `wsub_usize`).  Fallible code
returns `Option`/`Except`: `none` uniformly models a Rust panic, an I/O error
or an exhausted fuel bound of a source loop (the source's `move_row` collapse
of `Err` to `false` is not modelled; no theorem below exercises an error path
through it).  Page bytes, when needed, are `List Nat`.

A few items referenced by the library are not present under src/ (the modules
parser/jet.rs, parser/ese_db.rs, ese_trait.rs and the external cache_2q
crate).  Each definition modelled from the specification instead of the
source says so in its doc comment.
-/
import Mathlib

set_option linter.unusedVariables false

namespace EseParser

/-! ## Basic data model: page tags, pages, cursors -/

/-- A page tag as the cursor and tree walkers use it.  The source type
`PageTag { flags : u8, offset : u16, size : u16 }` lives in
src/lib/src/parser/ese_db.rs.  Only the defunct bit of `flags` and the `size`
field are consumed by the embedded code paths; the defunct bit is modelled as
a `Bool` because the numeric layout of `jet::PageTagFlags` is not under src/
(spec §3: "A tag may be marked defunct and must be skipped on iteration"). -/
structure PageTag where
  isDefunct : Bool
  size : Nat
deriving DecidableEq, Repr

/-- The view of a decoded page used by the walkers and the cursor: the fields
of `jet::DbPage` together with its `common()` sub-header
(`previous_page`, `next_page`) and the page flags consumed by the source
(`IS_ROOT`, `IS_LEAF`, `IS_PARENT`, `IS_LONG_VALUE`).  `branch_child` models
the child page number that `page_tag_get_branch_child_page_number`
(reader.rs:274) decodes from the page's second tag; the byte-level decoding
itself is not needed by any claim, so it is carried as an attribute of the
decoded page. -/
structure DbPage where
  page_number : Nat
  flags_root : Bool
  flags_leaf : Bool
  flags_parent : Bool
  flags_long_value : Bool
  previous_page : Nat
  next_page : Nat
  page_tags : List PageTag
  branch_child : Nat
deriving DecidableEq, Repr

/-- Cursor state of an open table (struct `Table` in ese_parser.rs): the
current page snapshot and the current tag index. -/
structure TableCursor where
  current_page : Option DbPage
  page_tag_index : Nat
deriving DecidableEq, Repr

/-- Modelled from the spec: the `ESE_Move*` constants live in ese_trait.rs,
which is not under src/; spec §6 fixes `MoveFirst = 0`, `MoveLast = 1`,
`MoveNext = 2`, `MovePrevious = 3` (or any stable encoding). -/
def ESE_MoveFirst : Nat := 0

/-- Modelled from the spec (see `ESE_MoveFirst`). -/
def ESE_MoveLast : Nat := 1

/-- Modelled from the spec (see `ESE_MoveFirst`). -/
def ESE_MoveNext : Nat := 2

/-- Modelled from the spec (see `ESE_MoveFirst`). -/
def ESE_MovePrevious : Nat := 3

/-- Wrapping subtraction on `usize` (64-bit), as performed by release-mode
Rust; a debug build would already panic on overflow. -/
def wsub_usize (a b : Nat) : Nat :=
  if b ≤ a then a - b else a + 2 ^ 64 - b

/-! ## Pager: file header loading (reader.rs:40-111) -/

/-- The file header fields consumed by `load_db_file_header`.  The full
layout of `ese_db::FileHeader` (src/lib/src/parser/ese_db.rs) is not under
src/; `other_words` stands for the remaining 32-bit words of the structure.
Per the spec (§4.1) the checksum is recomputed as an XOR-fold "of all 32-bit
words after the checksum", which is order-independent, so the word order
chosen by `header_words` below is immaterial. -/
structure FileHeader where
  checksum : Nat
  signature : Nat
  format_version : Nat
  format_revision : Nat
  page_size : Nat
  other_words : List Nat
deriving DecidableEq, Repr

/-- Modelled from the spec: the fixed signature constant
`ESEDB_FILE_SIGNATURE` lives in ese_db.rs, which is not under src/.  Its
numeric value is irrelevant to every claim. -/
def ESEDB_FILE_SIGNATURE : Nat := 0x89abcde7

/-- The 32-bit words of the header that follow the leading checksum word
(`vec32.iter().skip(1)` in `calc_crc32`, reader.rs:49-52). -/
def header_words (h : FileHeader) : List Nat :=
  h.signature :: h.format_version :: h.format_revision :: h.page_size ::
    h.other_words

/-- `calc_crc32` (reader.rs:49-52): XOR-fold of all header words after the
checksum, seeded with `0x89abcdef`. -/
def calc_crc32 (h : FileHeader) : Nat :=
  (header_words h).foldl Nat.xor 0x89abcdef

/-- The error cases of `load_db_file_header` (reader.rs:40-86), named as in
the specification (§7). -/
inductive HeaderError where
  | BadSignature
  | ChecksumMismatch
  | RevisionMismatch
  | PageSizeMismatch
  | UnsupportedVersion
deriving DecidableEq, Repr

/-- The primary header after its zero fields were filled from the mirror
(reader.rs:62-64 and 72-74). -/
def filled_header (primary backup : FileHeader) : FileHeader :=
  let h1 :=
    if primary.format_revision = 0 then
      { primary with format_revision := backup.format_revision }
    else primary
  if h1.page_size = 0 then { h1 with page_size := backup.page_size } else h1

/-- `load_db_file_header` (reader.rs:40-86): validate the signature and the
checksum of the primary header, fill zero `format_revision`/`page_size`
fields from the mirror header (read at offset `page_size`, passed here as
`backup`), check agreement with the mirror on both fields, and finally
reject a format version other than `0x620`. -/
def load_db_file_header (primary backup : FileHeader) :
    Except HeaderError FileHeader :=
  if primary.signature ≠ ESEDB_FILE_SIGNATURE then .error .BadSignature
  else if primary.checksum ≠ calc_crc32 primary then .error .ChecksumMismatch
  else
    let h1 :=
      if primary.format_revision = 0 then
        { primary with format_revision := backup.format_revision }
      else primary
    if h1.format_revision ≠ backup.format_revision then .error .RevisionMismatch
    else
      let h2 := if h1.page_size = 0 then { h1 with page_size := backup.page_size }
                else h1
      if h2.page_size ≠ backup.page_size then .error .PageSizeMismatch
      else if h2.format_version ≠ 0x620 then .error .UnsupportedVersion
      else .ok h2

/-- The pager fields that `Reader::new` (reader.rs:88-111) copies out of the
loaded header. -/
structure ReaderState where
  format_version : Nat
  format_revision : Nat
  page_size : Nat
  last_page_number : Nat
deriving DecidableEq, Repr

/-- The header-derived part of `Reader::new` (reader.rs:102-106). -/
def reader_new (primary backup : FileHeader) : Except HeaderError ReaderState :=
  (load_db_file_header primary backup).map fun h =>
    { format_version := h.format_version
      format_revision := h.format_revision
      page_size := h.page_size
      last_page_number := h.page_size * 2 / h.page_size }

/-! ## Pager: `Reader::read` (reader.rs:113) -/

/-- The slice extraction `page_buf[page_offset..page_offset + buf.len()]`
followed by `copy_from_slice` in `Reader::read` (reader.rs:136-144), given
the bytes of the cached page.  `pageBytes n` stands for the `page_size`-sized
block that `read_exact` pulled from disk for page index `n`.  A slice range
that runs past the end of the page buffer panics in Rust; the panic is
modelled as `none`. -/
def reader_read (page_size : Nat) (pageBytes : Nat → List Nat)
    (offset len : Nat) : Option (List Nat) :=
  let pg_no := offset / page_size
  let page_buf := pageBytes pg_no
  let page_offset := offset % page_size
  if page_offset + len ≤ page_buf.length then
    some ((page_buf.drop page_offset).take len)
  else
    none

/-! ## Long-value index: `load_lv_data` (reader.rs:973-995) -/

/-- The fields of `LV_tags` (reader.rs:879-886) consumed by `load_lv_data`:
the 32-bit big-endian key, the segment offset within the long value, the
segment's byte count and its absolute file offset.  (The source struct also
carries the common/local page keys, which are only used while the entry is
built in `load_lv_tag` and never read again.) -/
structure LV_tags where
  key : Nat
  seg_offset : Nat
  size : Nat
  offset : Nat
deriving DecidableEq, Repr

/-- The `while i < lv_tags.len()` loop of `load_lv_data` (reader.rs:979-988):
append any segment whose key matches and whose `seg_offset` equals the
current accumulated length, restarting the scan from index 0 after each
append.  `read_bytes o s` stands for `reader.read_bytes(o, s)`.  The loop
has no a-priori bound in the source (it can loop forever on a zero-sized
matching segment), hence the fuel; `none` models non-termination. -/
def load_lv_data_loop (read_bytes : Nat → Nat → List Nat)
    (lv_tags : List LV_tags) (long_value_key : Nat) :
    Nat → List Nat → Nat → Option (List Nat)
  | 0, _, _ => none
  | fuel + 1, res, i =>
    if h : i < lv_tags.length then
      let t := lv_tags.get ⟨i, h⟩
      if long_value_key = t.key ∧ res.length = t.seg_offset then
        load_lv_data_loop read_bytes lv_tags long_value_key fuel
          (res ++ read_bytes t.offset t.size) 0
      else
        load_lv_data_loop read_bytes lv_tags long_value_key fuel res (i + 1)
    else some res

/-- `load_lv_data` (reader.rs:973-995): run the scan loop starting from an
empty buffer, then fail with the long-value-not-found error iff nothing was
collected. -/
def load_lv_data (read_bytes : Nat → Nat → List Nat)
    (lv_tags : List LV_tags) (long_value_key : Nat) (fuel : Nat) :
    Option (Except String (List Nat)) :=
  match load_lv_data_loop read_bytes lv_tags long_value_key fuel [] 0 with
  | none => none
  | some res =>
    some (if res.length > 0 then .ok res else .error "LV key not found")

/-- Specification-side view: the concatenation of a list of segments. -/
def concat_segments (read_bytes : Nat → Nat → List Nat) :
    List LV_tags → List Nat
  | [] => []
  | t :: ts => read_bytes t.offset t.size ++ concat_segments read_bytes ts

/-- Specification-side view: the total size of a list of segments. -/
def sum_sizes : List LV_tags → Nat
  | [] => 0
  | t :: ts => t.size + sum_sizes ts

/-- Specification-side view: the segment offsets form a contiguous partition
starting at `n`: each segment starts exactly where the previous one ended. -/
def contiguous_from (n : Nat) : List LV_tags → Prop
  | [] => True
  | t :: ts => t.seg_offset = n ∧ contiguous_from (n + t.size) ts

/-! ## Page cache (2Q) -/

/-- Modelled from the spec: the cache is the external `cache_2q` crate,
which is not part of this repository.  Spec glossary: "2Q cache: a page
cache with two queues — a FIFO of recently-admitted pages and an LRU of
frequently-hit pages"; §4.1: "recent entries promoted to frequent on
re-hit; eviction is from the recent queue first".  Both queues are kept
oldest-first. -/
structure Cache2Q where
  recent : List Nat
  frequent : List Nat
deriving DecidableEq, Repr

/-- Cache lookup (`contains_key`). -/
def Cache2Q.containsKey (c : Cache2Q) (k : Nat) : Bool :=
  decide (k ∈ c.recent) || decide (k ∈ c.frequent)

/-- Number of cached entries. -/
def Cache2Q.size (c : Cache2Q) : Nat :=
  c.recent.length + c.frequent.length

/-- Modelled from the spec: on a re-hit a recent entry is promoted to the
frequent queue; a frequent entry moves to the most-recently-used end. -/
def Cache2Q.touch (c : Cache2Q) (k : Nat) : Cache2Q :=
  if k ∈ c.recent then
    { recent := c.recent.erase k, frequent := c.frequent.erase k ++ [k] }
  else if k ∈ c.frequent then
    { c with frequent := c.frequent.erase k ++ [k] }
  else c

/-- Modelled from the spec: admission of a missing key appends to the
recent FIFO; when the total capacity is exceeded, eviction takes the oldest
recent entry first, falling back to the least-recently-used frequent
entry. -/
def Cache2Q.insertKey (cap : Nat) (c : Cache2Q) (k : Nat) : Cache2Q :=
  let c1 : Cache2Q := { c with recent := c.recent ++ [k] }
  if c1.size ≤ cap then c1
  else if c1.recent.length ≠ 0 then { c1 with recent := c1.recent.drop 1 }
  else { c1 with frequent := c1.frequent.drop 1 }

/-- The cache interaction of `Reader::read` (reader.rs:113-134): a page
missing from the cache is fetched from disk (`true`) and admitted; a cached
page is served from the cache (`false`). -/
def cacheRead (cap : Nat) (c : Cache2Q) (k : Nat) : Bool × Cache2Q :=
  if c.containsKey k then (false, c.touch k)
  else (true, Cache2Q.insertKey cap c k)

/-- A sequence of page reads through the cache. -/
def cacheReadSeq (cap : Nat) : Cache2Q → List Nat → Cache2Q
  | c, [] => c
  | c, k :: ks => cacheReadSeq cap (cacheRead cap c k).2 ks

/-- The last `n` entries of a list. -/
def lastN (n : Nat) (l : List Nat) : List Nat :=
  l.drop (l.length - n)

/-! ## Record decoder: tagged multi-values (reader.rs:704-755) -/

/-- Little-endian 16-bit read from a byte list (the `read_struct::<u16>`
calls of the multi-value parser). -/
def read_le16 (l : List Nat) : Nat :=
  l.headD 0 + 256 * (l.drop 1).headD 0

/-- Little-endian 32-bit read from a byte list (`read_struct::<u32>` for a
long-value key). -/
def read_le32 (l : List Nat) : Nat :=
  l.headD 0 + 256 * ((l.drop 1).headD 0 + 256 * ((l.drop 2).headD 0
    + 256 * (l.drop 3).headD 0))

/-- The `MULTI_VALUE_OFFSET` arm of `load_data` (reader.rs:706-714): the
first payload byte is an offset `k`; two `(shift, (lv, size))` entries are
produced, `(1, (false, k))` and `(k+1, (false, tagged_data_type_size-k-1))`. -/
def mv_offset_indexes (payload : List Nat) (tagged_data_type_size : Nat) :
    List (Nat × Bool × Nat) :=
  let value := payload.headD 0
  [(1, false, value), (value + 1, false, tagged_data_type_size - value - 1)]

/-- The loop body of the `MULTI_VALUE` arm of `load_data` (reader.rs:729-738):
`k` more 16-bit words remain to read at byte position `pos`; `veo` and
`lvbit` are the offset and long-value bit taken from the previous word.  The
final entry extends to the end of the payload. -/
def mv_parse_loop (payload : List Nat) (tagged_data_type_size : Nat) :
    Nat → Nat → Nat → Bool → List (Nat × Bool × Nat)
  | 0, _, veo, lvbit => [(veo, lvbit, tagged_data_type_size - veo)]
  | k + 1, pos, veo, lvbit =>
    let value := read_le16 (payload.drop pos)
    (veo, lvbit, value &&& 0x7fff - veo) ::
      mv_parse_loop payload tagged_data_type_size k (pos + 2)
        (value &&& 0x7fff) (value &&& 0x8000 ≠ 0)

/-- The `MULTI_VALUE` arm of `load_data` (reader.rs:715-738): the first
16-bit word's low 15 bits give the offset of the first value, hence
`offset / 2` value entries in total. -/
def mv_value_indexes (payload : List Nat) (tagged_data_type_size : Nat) :
    List (Nat × Bool × Nat) :=
  let value := read_le16 payload
  let veo := value &&& 0x7fff
  let lvbit := value &&& 0x8000 ≠ 0
  mv_parse_loop payload tagged_data_type_size (veo / 2 - 1) 2 veo lvbit

/-- `read_bytes(offset + shift, size)` relative to the start of the tagged
payload: the bytes of one decoded sub-value. -/
def read_sub_value (payload : List Nat) (shift sz : Nat) : List Nat :=
  (payload.drop shift).take sz

/-- The sub-value selection of `load_data` (reader.rs:740-743):
`mv_index = multi_value_index - 1` when `multi_value_index > 0` and in range,
and `0` otherwise. -/
def mv_select_index (multi_value_index n : Nat) : Nat :=
  if multi_value_index > 0 ∧ multi_value_index - 1 < n then
    multi_value_index - 1
  else 0

/-- The tail of the multi-value arm of `load_data` (reader.rs:740-755):
select an entry, then either chase a long-value key (first four payload bytes
at the entry's shift, via `lv_load`, which stands for `load_lv_data`) or read
the raw range.  When the selected index is not below the number of entries
the source falls through (to the default/empty handling); that case is
`none`. -/
def get_mv_value (lv_load : Nat → Option (List Nat)) (payload : List Nat)
    (entries : List (Nat × Bool × Nat)) (multi_value_index : Nat) :
    Option (List Nat) :=
  let mv_index := mv_select_index multi_value_index entries.length
  match entries.get? mv_index with
  | some (shift, lv, sz) =>
    if lv then lv_load (read_le32 (payload.drop shift))
    else some (read_sub_value payload shift sz)
  | none => none

/-! ## Cursor iteration: `move_next_row` / `move_previous_row`
(ese_parser.rs:84-170) -/

/-- One pass of the `while i < ... && defunct` skip loop of
`move_next_row` (ese_parser.rs:103-105), with an explicit step bound (the
loop advances `i` by one per iteration, so `tags.length - i` steps always
suffice; see `skip_defunct_fwd`). -/
def skip_defunct_fwd_go (tags : List PageTag) : Nat → Nat → Nat
  | 0, i => i
  | n + 1, i =>
    if h : i < tags.length then
      if (tags.get ⟨i, h⟩).isDefunct then skip_defunct_fwd_go tags n (i + 1)
      else i
    else i

/-- The `while i < ... && defunct` skip loop of `move_next_row`
(ese_parser.rs:103-105). -/
def skip_defunct_fwd (tags : List PageTag) (i : Nat) : Nat :=
  skip_defunct_fwd_go tags (tags.length - i) i

/-- The `loop` of `move_next_row` (ese_parser.rs:102-121): skip defunct
tags; if a data tag remains on the page, position on it; otherwise cross to
`next_page` (restarting at tag index 1) or report no more rows.  The fuel
bounds the number of crossed pages; `none` models an exhausted bound or a
failing `DbPage::new`. -/
def move_next_loop (db : Nat → Option DbPage) :
    Nat → DbPage → Nat → Option (Bool × DbPage × Nat)
  | 0, _, _ => none
  | fuel + 1, page, i =>
    let i2 := skip_defunct_fwd page.page_tags i
    if i2 < page.page_tags.length then some (true, page, i2)
    else if page.next_page ≠ 0 then
      match db page.next_page with
      | some p => move_next_loop db fuel p 1
      | none => none
    else some (false, page, i2)

/-- `find_first_leaf_page` (reader.rs:493-503): descend through branch
pages until a page with the leaf flag is found.  The byte-level decoding of
the child pointer (`page_tag_get_branch_child_page_number`) is carried as
the page's `branch_child` attribute. -/
def find_first_leaf_page (db : Nat → Option DbPage) :
    Nat → Nat → Option Nat
  | 0, _ => none
  | fuel + 1, page_number =>
    match db page_number with
    | none => none
    | some p =>
      if p.flags_leaf then some page_number
      else find_first_leaf_page db fuel p.branch_child

/-- `move_next_row` (ese_parser.rs:84-122).  With `MoveFirst`, position on
the first leaf of the table's tree (reloading the page unless the cursor is
already there) and return `false` immediately when that page holds fewer
than two tags; otherwise scan from tag 1.  With any other `crow`, scan from
`page_tag_index + 1`.  On `Ok(true)` the cursor holds the found page and
tag; on `Ok(false)` it holds the last page examined and the unchanged tag
index. -/
def move_next_row (db : Nat → Option DbPage) (fuel fdp : Nat)
    (t : TableCursor) (crow : Nat) : Option (Bool × TableCursor) :=
  let i := t.page_tag_index + 1
  if crow = ESE_MoveFirst then
    match find_first_leaf_page db fuel fdp with
    | none => none
    | some first_leaf =>
      let curO : Option DbPage :=
        match t.current_page with
        | none => db first_leaf
        | some p =>
          if p.page_number ≠ first_leaf then db first_leaf else some p
      match curO with
      | none => none
      | some cur =>
        if cur.page_tags.length < 2 then
          some (false,
            { current_page := some cur, page_tag_index := t.page_tag_index })
        else
          match move_next_loop db fuel cur 1 with
          | none => none
          | some (true, q, j) =>
            some (true, { current_page := some q, page_tag_index := j })
          | some (false, q, _) =>
            some (false,
              { current_page := some q, page_tag_index := t.page_tag_index })
  else
    match t.current_page with
    | none => none
    | some pg =>
      match move_next_loop db fuel pg i with
      | none => none
      | some (true, q, j) =>
        some (true, { current_page := some q, page_tag_index := j })
      | some (false, q, _) =>
        some (false,
          { current_page := some q, page_tag_index := t.page_tag_index })

/-- The `while i > 0 && defunct` skip loop of `move_previous_row`
(ese_parser.rs:141-143), including the panicking out-of-bounds index
`page_tags[i]` when `i` is not a valid tag index (`none`). -/
def skip_defunct_bwd (tags : List PageTag) : Nat → Option Nat
  | 0 => some 0
  | i + 1 =>
    match tags.get? (i + 1) with
    | none => none
    | some tg => if tg.isDefunct then skip_defunct_bwd tags i else some (i + 1)

/-- The `loop` of `move_previous_row` (ese_parser.rs:140-158): skip defunct
tags downward; tag index 0 is never a row, so cross to `previous_page`
(restarting at `page_tags.len() - 1`, an unsigned subtraction) or report no
more rows. -/
def move_prev_loop (db : Nat → Option DbPage) :
    Nat → DbPage → Nat → Option (Bool × DbPage × Nat)
  | 0, _, _ => none
  | fuel + 1, page, i =>
    match skip_defunct_bwd page.page_tags i with
    | none => none
    | some i2 =>
      if i2 > 0 then some (true, page, i2)
      else if page.previous_page ≠ 0 then
        match db page.previous_page with
        | some p => move_prev_loop db fuel p (wsub_usize p.page_tags.length 1)
        | none => none
      else some (false, page, i2)

/-- The `while next_page != 0` loop of the `MoveLast` branch
(ese_parser.rs:130-133): follow `next_page` links to the last leaf. -/
def follow_next_to_last (db : Nat → Option DbPage) :
    Nat → DbPage → Option DbPage
  | 0, p => if p.next_page = 0 then some p else none
  | fuel + 1, p =>
    if p.next_page = 0 then some p
    else
      match db p.next_page with
      | some q => follow_next_to_last db fuel q
      | none => none

/-- `move_previous_row` (ese_parser.rs:124-159).  The source first computes
`let mut i = t.page_tag_index - 1` on a `usize`; the release-mode wrapping
of that subtraction is modelled by `wsub_usize` (a debug build panics right
there).  With `MoveLast`, follow `next_page` to the last leaf and return
`false` when it holds fewer than two tags, else scan down from
`page_tags.len() - 1`; with any other `crow`, scan down from the wrapped
`i` — which, for a cursor at tag index 0, indexes `page_tags` out of
bounds (`none`, a panic). -/
def move_previous_row (db : Nat → Option DbPage) (fuel : Nat)
    (t : TableCursor) (crow : Nat) : Option (Bool × TableCursor) :=
  match t.current_page with
  | none => none
  | some pg =>
    let i := wsub_usize t.page_tag_index 1
    if crow = ESE_MoveLast then
      match follow_next_to_last db fuel pg with
      | none => none
      | some lastPg =>
        if lastPg.page_tags.length < 2 then
          some (false,
            { current_page := some lastPg,
              page_tag_index := t.page_tag_index })
        else
          match move_prev_loop db fuel lastPg (lastPg.page_tags.length - 1)
              with
          | none => none
          | some (true, q, j) =>
            some (true, { current_page := some q, page_tag_index := j })
          | some (false, q, _) =>
            some (false,
              { current_page := some q, page_tag_index := t.page_tag_index })
    else
      match move_prev_loop db fuel pg i with
      | none => none
      | some (true, q, j) =>
        some (true, { current_page := some q, page_tag_index := j })
      | some (false, q, _) =>
        some (false,
          { current_page := some q, page_tag_index := t.page_tag_index })

/-- `move_row_helper`/`move_row` (ese_parser.rs:161-170, 274-282): dispatch
on the whence code; an unimplemented code yields `Err`, which `move_row`
turns into `false`. -/
def move_row (db : Nat → Option DbPage) (fuel fdp : Nat)
    (t : TableCursor) (crow : Nat) : Option (Bool × TableCursor) :=
  if crow = ESE_MoveFirst ∨ crow = ESE_MoveNext then
    move_next_row db fuel fdp t crow
  else if crow = ESE_MoveLast ∨ crow = ESE_MovePrevious then
    move_previous_row db fuel t crow
  else some (false, t)

/-- The boolean results of a sequence of `move_row` calls. -/
def run_moves (db : Nat → Option DbPage) (fuel fdp : Nat) :
    TableCursor → List Nat → Option (List Bool)
  | _, [] => some []
  | t, crow :: rest =>
    match move_row db fuel fdp t crow with
    | none => none
    | some (b, t2) =>
      match run_moves db fuel fdp t2 rest with
      | none => none
      | some bs => some (b :: bs)

/-- The rows a sequence of `move_row` calls positions on:
`some (page_number, tag_index)` for a call returning `true`, `none` for a
call returning `false`. -/
def rows_trace (db : Nat → Option DbPage) (fuel fdp : Nat) :
    TableCursor → List Nat → Option (List (Option (Nat × Nat)))
  | _, [] => some []
  | t, crow :: rest =>
    match move_row db fuel fdp t crow with
    | none => none
    | some (b, t2) =>
      let entry : Option (Nat × Nat) :=
        match b, t2.current_page with
        | true, some pg => some (pg.page_number, t2.page_tag_index)
        | _, _ => none
      match rows_trace db fuel fdp t2 rest with
      | none => none
      | some es => some (entry :: es)

/-! ## Specification-side row enumeration over leaf chains -/

/-- Whether the tag at index `j` is defunct (out-of-range indices count as
defunct for enumeration purposes). -/
def defunct_at (tags : List PageTag) (j : Nat) : Bool :=
  match tags.get? j with
  | some tg => tg.isDefunct
  | none => true

/-- Non-defunct tag indices of a page, ascending from `i`, with an explicit
step bound (see `row_idxs_fwd`). -/
def row_idxs_fwd_go (tags : List PageTag) : Nat → Nat → List Nat
  | 0, _ => []
  | n + 1, i =>
    if h : i < tags.length then
      if (tags.get ⟨i, h⟩).isDefunct then row_idxs_fwd_go tags n (i + 1)
      else i :: row_idxs_fwd_go tags n (i + 1)
    else []

/-- Non-defunct tag indices of a page, ascending from `i`. -/
def row_idxs_fwd (tags : List PageTag) (i : Nat) : List Nat :=
  row_idxs_fwd_go tags (tags.length - i) i

/-- Non-defunct tag indices of a page, descending from `i` down to 1. -/
def row_idxs_bwd (tags : List PageTag) : Nat → List Nat
  | 0 => []
  | j + 1 =>
    if defunct_at tags (j + 1) then row_idxs_bwd tags j
    else (j + 1) :: row_idxs_bwd tags j

/-- The data rows of one leaf page: its non-defunct tags at indices ≥ 1. -/
def page_rows (p : DbPage) : List (Nat × Nat) :=
  (row_idxs_fwd p.page_tags 1).map (fun j => (p.page_number, j))

/-- The data rows of a chain of leaf pages, in forward order. -/
def chain_rows : List DbPage → List (Nat × Nat)
  | [] => []
  | p :: rest => page_rows p ++ chain_rows rest

/-- The rows at or after position `(p, i)` on the chain `p :: rest`. -/
def rows_from (p : DbPage) (i : Nat) (rest : List DbPage) :
    List (Nat × Nat) :=
  (row_idxs_fwd p.page_tags i).map (fun j => (p.page_number, j)) ++
    chain_rows rest

/-- The data rows of one leaf page, backward (descending tag index). -/
def page_rows_bwd (p : DbPage) : List (Nat × Nat) :=
  (row_idxs_bwd p.page_tags (p.page_tags.length - 1)).map
    (fun j => (p.page_number, j))

/-- The data rows of pages listed from a chain's tail towards its head,
each page's rows in descending tag order. -/
def chain_rows_bwd : List DbPage → List (Nat × Nat)
  | [] => []
  | p :: rest => page_rows_bwd p ++ chain_rows_bwd rest

/-- The rows at or before position `(p, i)` walking backward, `prevs`
listing the pages before `p` starting with its immediate predecessor. -/
def rows_down (p : DbPage) (i : Nat) (prevs : List DbPage) :
    List (Nat × Nat) :=
  (row_idxs_bwd p.page_tags i).map (fun j => (p.page_number, j)) ++
    chain_rows_bwd prevs

/-- `rest` is the forward sibling chain hanging off `p`: consecutive
`next_page` links, nonzero page numbers, and a database that resolves each
page number to its page; the chain ends with `next_page = 0`. -/
def chain_next (db : Nat → Option DbPage) : DbPage → List DbPage → Bool
  | p, [] => p.page_number != 0 && p.next_page == 0
  | p, q :: rest =>
    p.page_number != 0 && p.next_page == q.page_number &&
      decide (db q.page_number = some q) && chain_next db q rest

/-- `prevs` is the backward sibling chain hanging off `p`: consecutive
`previous_page` links back to the head, whose `previous_page` is 0. -/
def chain_prev (db : Nat → Option DbPage) : DbPage → List DbPage → Bool
  | p, [] => p.previous_page == 0
  | p, q :: prevs =>
    p.previous_page == q.page_number && q.page_number != 0 &&
      decide (db q.page_number = some q) && chain_prev db q prevs

/-- The last page of the chain `p :: rest`. -/
def chain_last (p : DbPage) (rest : List DbPage) : DbPage :=
  rest.getLastD p

/-! ## Catalog and long-value tree walks (reader.rs:295-374, 895-971) -/

/-- The error cases of the tree walks, named as in the specification
(§7). -/
inductive WalkError where
  | ReadFailed
  | SiblingChainBroken
  | PageFlagsUnexpected
  | RootTagSize
deriving DecidableEq, Repr

/-- `load_root_page_header` as used by the walks (reader.rs:253-272 via
302-306): on a root page, tag 0 must carry a root header of size 16 or 25;
indexing `pg_tags[0]` on a page without tags panics (`none`). -/
def root_header_check (pg : DbPage) :
    Option (Except WalkError Unit) :=
  if pg.flags_root then
    match pg.page_tags.get? 0 with
    | none => none
    | some tag0 =>
      if tag0.size = 16 ∨ tag0.size = 25 then some (.ok ())
      else some (.error .RootTagSize)
  else some (.ok ())

/-- The `while page_number != 0` loop of `load_catalog` (reader.rs:325-367):
check the back-link against the previously visited page, require the leaf
flag, and decode every non-defunct tag at index ≥ 1.  The catalog-item
decoding itself (`load_catalog_item`) is abstracted to collecting the
`(page_number, tag_index)` positions that get decoded — the claim under
study concerns the traversal, not the item payloads. -/
def catalog_chain_loop (db : Nat → Option DbPage) :
    Nat → Nat → Nat → Option (Except WalkError (List (Nat × Nat)))
  | 0, _, _ => none
  | fuel + 1, page_number, prev_page_number =>
    if page_number = 0 then some (.ok [])
    else
      match db page_number with
      | none => some (.error .ReadFailed)
      | some pg =>
        if pg.previous_page ≠ 0 ∧ prev_page_number ≠ pg.previous_page then
          some (.error .SiblingChainBroken)
        else if ¬pg.flags_leaf then some (.error .PageFlagsUnexpected)
        else
          match catalog_chain_loop db fuel pg.next_page page_number with
          | none => none
          | some (.error e) => some (.error e)
          | some (.ok rest) =>
            some (.ok ((row_idxs_fwd pg.page_tags 1).map
              (fun j => (page_number, j)) ++ rest))

/-- The entry of `load_catalog` (reader.rs:295-323): root-header check,
then descend through the second tag of a parent page (or stay on a leaf),
then run the chain loop with the start page as the initial
`prev_page_number`. -/
def load_catalog_walk (db : Nat → Option DbPage) (fuel : Nat)
    (start : DbPage) : Option (Except WalkError (List (Nat × Nat))) :=
  match root_header_check start with
  | none => none
  | some (.error e) => some (.error e)
  | some (.ok _) =>
    if start.flags_parent then
      catalog_chain_loop db fuel start.branch_child start.page_number
    else if start.flags_leaf then
      catalog_chain_loop db fuel start.page_number start.page_number
    else some (.error .PageFlagsUnexpected)

/-- `load_catalog` starts at the fixed catalog page
(`FixedPageNumber::Catalog = 4`, reader.rs:298). -/
def load_catalog (db : Nat → Option DbPage) (fuel : Nat) :
    Option (Except WalkError (List (Nat × Nat))) :=
  match db 4 with
  | none => some (.error .ReadFailed)
  | some pg => load_catalog_walk db fuel pg

mutual

/-- `load_lv_metadata` (reader.rs:895-971): require the long-value flag,
check the root header, then either walk the branch's leaf chain or collect
this single leaf's tags (tag indices ≥ 1; the source's leaf-root loop does
not skip defunct tags).  `load_lv_tag` decoding is abstracted to collecting
positions, as for the catalog. -/
def load_lv_metadata_walk (db : Nat → Option DbPage) :
    Nat → Nat → Option (Except WalkError (List (Nat × Nat)))
  | 0, _ => none
  | fuel + 1, page_number =>
    match db page_number with
    | none => some (.error .ReadFailed)
    | some pg =>
      if ¬pg.flags_long_value then some (.error .PageFlagsUnexpected)
      else
        match root_header_check pg with
        | none => none
        | some (.error e) => some (.error e)
        | some (.ok _) =>
          if ¬pg.flags_leaf then
            lv_chain_loop db fuel pg.branch_child pg.page_number
          else
            some (.ok ((List.range' 1 (pg.page_tags.length - 1)).map
              (fun j => (page_number, j))))
termination_by fuel pn => fuel

/-- The `while page_number != 0` loop of `load_lv_metadata`
(reader.rs:916-956): check the back-link, then either recurse into a page
lacking the leaf+long-value flags ("parent of leaf") or collect the leaf's
non-defunct tags at indices ≥ 1, and follow `next_page`. -/
def lv_chain_loop (db : Nat → Option DbPage) :
    Nat → Nat → Nat → Option (Except WalkError (List (Nat × Nat)))
  | 0, _, _ => none
  | fuel + 1, page_number, prev_page_number =>
    if page_number = 0 then some (.ok [])
    else
      match db page_number with
      | none => some (.error .ReadFailed)
      | some pg =>
        if pg.previous_page ≠ 0 ∧ prev_page_number ≠ pg.previous_page then
          some (.error .SiblingChainBroken)
        else
          match
            (if ¬(pg.flags_leaf ∧ pg.flags_long_value) then
              load_lv_metadata_walk db fuel page_number
            else
              some (.ok ((row_idxs_fwd pg.page_tags 1).map
                (fun j => (page_number, j))))) with
          | none => none
          | some (.error e) => some (.error e)
          | some (.ok hs) =>
            match lv_chain_loop db fuel pg.next_page page_number with
            | none => none
            | some (.error e) => some (.error e)
            | some (.ok rest) => some (.ok (hs ++ rest))
termination_by fuel pn prev => fuel

end

/-- The head page number of a list of visited pages (`dflt` when the list
is empty). -/
def chain_head_pn (chain : List DbPage) (dflt : Nat) : Nat :=
  match chain with
  | [] => dflt
  | p :: _ => p.page_number

/-- The page number most recently visited after walking `chain`, coming
from previously visited page number `prev`. -/
def last_visited (prev : Nat) (chain : List DbPage) : Nat :=
  (chain.map DbPage.page_number).getLastD prev

/-- The per-page conditions under which the `load_catalog` chain loop
(reader.rs:325-367) passes each page of `chain` and moves on to its
`next_page`: coming from previously visited page number `prev`, each page
is nonzero, is what the database resolves its number to, passes the
back-link check, carries the leaf flag, and links forward to the next
page of the list — the last one to `stop`. -/
def catalog_walk_ok (db : Nat → Option DbPage) :
    Nat → List DbPage → Nat → Bool
  | _, [], _ => true
  | prev, p :: rest, stop =>
    p.page_number != 0 && decide (db p.page_number = some p) &&
      (p.previous_page == 0 || prev == p.previous_page) &&
      p.flags_leaf && p.next_page == chain_head_pn rest stop &&
      catalog_walk_ok db p.page_number rest stop

/-- The per-page conditions under which the `load_lv_metadata` chain loop
(reader.rs:916-956) passes each page of `chain` through its leaf branch
and moves on to its `next_page`: as for the catalog loop, with the leaf
and long-value flags both set. -/
def lv_walk_ok (db : Nat → Option DbPage) :
    Nat → List DbPage → Nat → Bool
  | _, [], _ => true
  | prev, p :: rest, stop =>
    p.page_number != 0 && decide (db p.page_number = some p) &&
      (p.previous_page == 0 || prev == p.previous_page) &&
      p.flags_leaf && p.flags_long_value &&
      p.next_page == chain_head_pn rest stop &&
      lv_walk_ok db p.page_number rest stop

/-! ## Concrete pages for the cursor / chain analyses -/

/-- A leaf page (number 1) holding one data row, linked forward to page 2,
with a correct head back-link of 0. -/
def pageBrokenA : DbPage :=
  { page_number := 1, flags_root := false, flags_leaf := true,
    flags_parent := false, flags_long_value := true, previous_page := 0,
    next_page := 2, page_tags := [⟨false, 16⟩, ⟨false, 8⟩],
    branch_child := 0 }

/-- A leaf page (number 2) holding one data row whose `previous_page`
back-link (99) does not point back to page 1. -/
def pageBrokenB : DbPage :=
  { page_number := 2, flags_root := false, flags_leaf := true,
    flags_parent := false, flags_long_value := true, previous_page := 99,
    next_page := 0, page_tags := [⟨false, 16⟩, ⟨false, 8⟩],
    branch_child := 0 }

/-- The two-page database with the broken back-link. -/
def dbBroken : Nat → Option DbPage := fun n =>
  if n = 1 then some pageBrokenA
  else if n = 2 then some pageBrokenB
  else none

/-- A leaf page with no data rows (only the tag-0 prefix slot), as an empty
table's cursor sees it after `open_table`. -/
def emptyLeafPage : DbPage :=
  { page_number := 9, flags_root := false, flags_leaf := true,
    flags_parent := false, flags_long_value := false, previous_page := 0,
    next_page := 0, page_tags := [⟨false, 16⟩], branch_child := 0 }

/-- The single-page database holding `emptyLeafPage`. -/
def dbEmptyTable : Nat → Option DbPage := fun n =>
  if n = 9 then some emptyLeafPage else none

/-- A leaf page (number 5) holding only the tag-0 prefix slot but linked
forward to a page that does hold a row. -/
def pageEmptyHead : DbPage :=
  { page_number := 5, flags_root := false, flags_leaf := true,
    flags_parent := false, flags_long_value := false, previous_page := 0,
    next_page := 6, page_tags := [⟨false, 16⟩], branch_child := 0 }

/-- A leaf page (number 6) holding one data row, chained after
`pageEmptyHead`. -/
def pageWithRow : DbPage :=
  { page_number := 6, flags_root := false, flags_leaf := true,
    flags_parent := false, flags_long_value := false, previous_page := 5,
    next_page := 0, page_tags := [⟨false, 16⟩, ⟨false, 8⟩],
    branch_child := 0 }

/-- The two-page database whose first leaf holds no rows. -/
def dbEmptyHead : Nat → Option DbPage := fun n =>
  if n = 5 then some pageEmptyHead
  else if n = 6 then some pageWithRow
  else none

/-- The first of two leaves (number 11) carrying five data rows each. -/
def pageTen1 : DbPage :=
  { page_number := 11, flags_root := false, flags_leaf := true,
    flags_parent := false, flags_long_value := false, previous_page := 0,
    next_page := 12,
    page_tags := [⟨false, 16⟩, ⟨false, 8⟩, ⟨false, 8⟩, ⟨false, 8⟩,
      ⟨false, 8⟩, ⟨false, 8⟩],
    branch_child := 0 }

/-- The second of two leaves (number 12) carrying five data rows each. -/
def pageTen2 : DbPage :=
  { page_number := 12, flags_root := false, flags_leaf := true,
    flags_parent := false, flags_long_value := false, previous_page := 11,
    next_page := 0,
    page_tags := [⟨false, 16⟩, ⟨false, 8⟩, ⟨false, 8⟩, ⟨false, 8⟩,
      ⟨false, 8⟩, ⟨false, 8⟩],
    branch_child := 0 }

/-- The two-leaf, ten-row database of the spec's row-iteration scenario. -/
def dbTenRows : Nat → Option DbPage := fun n =>
  if n = 11 then some pageTen1
  else if n = 12 then some pageTen2
  else none

/-- A leaf page (number 21) holding one data row, chained before a trailing
leaf that holds none. -/
def pageTrailHead : DbPage :=
  { page_number := 21, flags_root := false, flags_leaf := true,
    flags_parent := false, flags_long_value := false, previous_page := 0,
    next_page := 22, page_tags := [⟨false, 16⟩, ⟨false, 8⟩],
    branch_child := 0 }

/-- A trailing leaf page (number 22) holding only the tag-0 prefix slot. -/
def pageTrailEmpty : DbPage :=
  { page_number := 22, flags_root := false, flags_leaf := true,
    flags_parent := false, flags_long_value := false, previous_page := 21,
    next_page := 0, page_tags := [⟨false, 16⟩], branch_child := 0 }

/-- The two-page database whose last leaf holds no rows. -/
def dbTrailEmpty : Nat → Option DbPage := fun n =>
  if n = 21 then some pageTrailHead
  else if n = 22 then some pageTrailEmpty
  else none

/-! ## Concrete headers for the mirror-agreement analysis -/

/-- A primary header whose signature and checksum are valid, whose
revision and page size agree with the mirror, but whose format version is
`0x621`. -/
def headerVersion621 : FileHeader :=
  let base : FileHeader :=
    { checksum := 0, signature := ESEDB_FILE_SIGNATURE,
      format_version := 0x621, format_revision := 0x11, page_size := 4096,
      other_words := [] }
  { base with checksum := calc_crc32 base }

/-- The mirror header matching `headerVersion621` on revision and page
size. -/
def mirrorForVersion621 : FileHeader :=
  { headerVersion621 with format_version := 0x620 }

/-- A primary header with `format_revision = 0` (to be filled from the
mirror), valid signature and checksum, format version `0x620`. -/
def headerRevisionZero : FileHeader :=
  let base : FileHeader :=
    { checksum := 0, signature := ESEDB_FILE_SIGNATURE,
      format_version := 0x620, format_revision := 0, page_size := 4096,
      other_words := [] }
  { base with checksum := calc_crc32 base }

/-- A mirror header carrying revision `0x11`. -/
def mirrorRevision11 : FileHeader :=
  { headerRevisionZero with format_revision := 0x11 }

end EseParser

namespace EseParser

/-! ## Theorems: C9 and C7/C10 building blocks -/

/-- C9: `Reader::read(offset, buf)` is only defined when the requested byte
range lies within a single page: with every cached page buffer of length
`page_size`, the slice copy succeeds iff
`offset % page_size + buf.len() ≤ page_size`; any range crossing a page
boundary panics (modelled `none`) rather than returning an error value or
bytes spanning two pages, and a successful read returns bytes of page
`offset / page_size` only. -/
theorem c9_reader_read_bounds (page_size : Nat) (pageBytes : Nat → List Nat)
    (offset len : Nat)
    (hlen : ∀ n, (pageBytes n).length = page_size) :
    ((reader_read page_size pageBytes offset len).isSome ↔
      offset % page_size + len ≤ page_size)
    ∧ (∀ v, reader_read page_size pageBytes offset len = some v →
        v = ((pageBytes (offset / page_size)).drop (offset % page_size)).take
          len) := by
  constructor
  · simp only [reader_read]
    rw [hlen]
    split <;> simp_all
  · intro v hv
    simp only [reader_read] at hv
    split at hv
    · exact (Option.some_inj.mp hv).symm
    · cases hv

/-- Witness for `c9_reader_read_bounds` at a concrete input: page size 8,
a read of 4 bytes at offset 22 stays in page 2 (22 % 8 + 4 = 10 > 8 fails;
offset 20 with 22 % 8 … use offset 20: 20 % 8 + 4 = 8 ≤ 8 succeeds). -/
theorem c9_reader_read_bounds_witness :
    ((reader_read 8 (fun _ => [0, 1, 2, 3, 4, 5, 6, 7]) 20 4).isSome ↔
      20 % 8 + 4 ≤ 8)
    ∧ (∀ v, reader_read 8 (fun _ => [0, 1, 2, 3, 4, 5, 6, 7]) 20 4 = some v →
        v = (([0, 1, 2, 3, 4, 5, 6, 7].drop (20 % 8)).take 4 : List Nat)) :=
  c9_reader_read_bounds 8 (fun _ => [0, 1, 2, 3, 4, 5, 6, 7]) 20 4
    (fun _ => rfl)

/-- C7: a tagged column entry carrying `MULTI_VALUE_OFFSET` whose payload of
size `size` begins with byte `k < size` decodes to exactly two sub-values:
the payload bytes at positions `[1..=k]` (length `k`) and at positions
`[k+1..size)` (length `size - k - 1`); `get_column_mv` with
`multi_value_index` 1 returns the first and with 2 the second. -/
theorem c7_multi_value_offset (lv_load : Nat → Option (List Nat))
    (payload : List Nat) (size k : Nat)
    (hsize : payload.length = size) (hk : payload.headD 0 = k)
    (hlt : k < size) :
    (mv_offset_indexes payload size).length = 2
    ∧ get_mv_value lv_load payload (mv_offset_indexes payload size) 1 =
        some ((payload.drop 1).take k)
    ∧ ((payload.drop 1).take k).length = k
    ∧ get_mv_value lv_load payload (mv_offset_indexes payload size) 2 =
        some ((payload.drop (k + 1)).take (size - k - 1))
    ∧ ((payload.drop (k + 1)).take (size - k - 1)).length = size - k - 1 := by
  have e1 : get_mv_value lv_load payload (mv_offset_indexes payload size) 1 =
      some ((payload.drop 1).take (payload.headD 0)) := rfl
  have e2 : get_mv_value lv_load payload (mv_offset_indexes payload size) 2 =
      some ((payload.drop (payload.headD 0 + 1)).take
        (size - payload.headD 0 - 1)) := rfl
  refine ⟨rfl, ?_, ?_, ?_, ?_⟩
  · rw [e1, hk]
  · rw [List.length_take, List.length_drop, hsize]
    omega
  · rw [e2, hk]
  · rw [List.length_take, List.length_drop, hsize]
    omega

/-- Witness for `c7_multi_value_offset`: the spec's concrete scenario with
`k = 0x0d = 13` and a payload of 16 bytes. -/
theorem c7_multi_value_offset_witness :
    (mv_offset_indexes
        [13, 1, 2, 3, 4, 5, 6, 7, 8, 9, 10, 11, 12, 13, 14, 15] 16).length = 2
    ∧ get_mv_value (fun _ => none)
        [13, 1, 2, 3, 4, 5, 6, 7, 8, 9, 10, 11, 12, 13, 14, 15]
        (mv_offset_indexes
          [13, 1, 2, 3, 4, 5, 6, 7, 8, 9, 10, 11, 12, 13, 14, 15] 16) 1 =
        some (([13, 1, 2, 3, 4, 5, 6, 7, 8, 9, 10, 11, 12, 13, 14, 15].drop
          1).take 13)
    ∧ (((([13, 1, 2, 3, 4, 5, 6, 7, 8, 9, 10, 11, 12, 13, 14, 15] :
        List Nat).drop 1).take 13)).length = 13
    ∧ get_mv_value (fun _ => none)
        [13, 1, 2, 3, 4, 5, 6, 7, 8, 9, 10, 11, 12, 13, 14, 15]
        (mv_offset_indexes
          [13, 1, 2, 3, 4, 5, 6, 7, 8, 9, 10, 11, 12, 13, 14, 15] 16) 2 =
        some (([13, 1, 2, 3, 4, 5, 6, 7, 8, 9, 10, 11, 12, 13, 14, 15].drop
          14).take (16 - 13 - 1))
    ∧ ((([13, 1, 2, 3, 4, 5, 6, 7, 8, 9, 10, 11, 12, 13, 14, 15] :
        List Nat).drop 14).take (16 - 13 - 1)).length = 16 - 13 - 1 :=
  c7_multi_value_offset (fun _ => none)
    [13, 1, 2, 3, 4, 5, 6, 7, 8, 9, 10, 11, 12, 13, 14, 15] 16 13
    (by decide) (by decide) (by decide)

/-- C10: on a multi-valued tagged column with `n ≥ 1` decoded sub-values, a
`multi_value_index` strictly greater than `n` selects entry 0, so
`get_column_mv` returns the first sub-value — the same result as
`multi_value_index` 0 or 1 — rather than failing or returning `None`. -/
theorem c10_mv_index_fallback (lv_load : Nat → Option (List Nat))
    (payload : List Nat) (entries : List (Nat × Bool × Nat))
    (multi_value_index : Nat)
    (hne : entries ≠ []) (hgt : entries.length < multi_value_index) :
    mv_select_index multi_value_index entries.length = 0
    ∧ get_mv_value lv_load payload entries multi_value_index =
        get_mv_value lv_load payload entries 0
    ∧ get_mv_value lv_load payload entries multi_value_index =
        get_mv_value lv_load payload entries 1
    ∧ ((get_mv_value lv_load payload entries multi_value_index).isSome
        ∨ ∃ shift sz, entries.get? 0 = some (shift, true, sz)) := by
  have hsel : mv_select_index multi_value_index entries.length = 0 := by
    unfold mv_select_index
    rw [if_neg]
    omega
  have hsel0 : mv_select_index 0 entries.length = 0 := by
    unfold mv_select_index
    simp
  have hsel1 : mv_select_index 1 entries.length = 0 := by
    unfold mv_select_index
    simp
  refine ⟨hsel, ?_, ?_, ?_⟩
  · unfold get_mv_value
    rw [hsel, hsel0]
  · unfold get_mv_value
    rw [hsel, hsel1]
  · rcases entries with _ | ⟨⟨shift, lv, sz⟩, rest⟩
    · exact absurd rfl hne
    · cases lv
      · left
        unfold get_mv_value
        rw [hsel]
        simp
      · right
        exact ⟨shift, sz, rfl⟩

/-- Witness for `c10_mv_index_fallback`: two decoded sub-values, index 7. -/
theorem c10_mv_index_fallback_witness :
    mv_select_index 7 ([(1, false, 2), (3, false, 1)] :
        List (Nat × Bool × Nat)).length = 0
    ∧ get_mv_value (fun _ => none) [9, 8, 7, 6]
        [(1, false, 2), (3, false, 1)] 7 =
        get_mv_value (fun _ => none) [9, 8, 7, 6]
          [(1, false, 2), (3, false, 1)] 0
    ∧ get_mv_value (fun _ => none) [9, 8, 7, 6]
        [(1, false, 2), (3, false, 1)] 7 =
        get_mv_value (fun _ => none) [9, 8, 7, 6]
          [(1, false, 2), (3, false, 1)] 1
    ∧ ((get_mv_value (fun _ => none) [9, 8, 7, 6]
        [(1, false, 2), (3, false, 1)] 7).isSome
        ∨ ∃ shift sz, ([(1, false, 2), (3, false, 1)] :
            List (Nat × Bool × Nat)).get? 0 = some (shift, true, sz)) :=
  c10_mv_index_fallback (fun _ => none) [9, 8, 7, 6]
    [(1, false, 2), (3, false, 1)] 7 (by decide) (by decide)

/-! ## Theorems: C3 (long-value reassembly) -/

theorem concat_segments_append (rb : Nat → Nat → List Nat)
    (a b : List LV_tags) :
    concat_segments rb (a ++ b) =
      concat_segments rb a ++ concat_segments rb b := by
  induction a with
  | nil => simp [concat_segments]
  | cons t ts ih => simp [concat_segments, ih]

theorem sum_sizes_append (a b : List LV_tags) :
    sum_sizes (a ++ b) = sum_sizes a + sum_sizes b := by
  induction a with
  | nil => simp [sum_sizes]
  | cons t ts ih => simp [sum_sizes, ih]; omega

theorem concat_segments_length (rb : Nat → Nat → List Nat)
    (hread : ∀ o s, (rb o s).length = s) (l : List LV_tags) :
    (concat_segments rb l).length = sum_sizes l := by
  induction l with
  | nil => rfl
  | cons t ts ih => simp [concat_segments, sum_sizes, ih, hread]

theorem contiguous_from_append_single (t : LV_tags) :
    ∀ (a : List LV_tags) (n : Nat), contiguous_from n a →
      t.seg_offset = n + sum_sizes a → contiguous_from n (a ++ [t]) := by
  intro a
  induction a with
  | nil =>
    intro n _ hoff
    exact ⟨by simpa [sum_sizes] using hoff, trivial⟩
  | cons s ss ih =>
    intro n hcont hoff
    refine ⟨hcont.1, ih (n + s.size) hcont.2 ?_⟩
    rw [hoff, sum_sizes]
    omega

/-- Everything `load_lv_data_loop` ever returns is a contiguous chain of
matching segments extending its starting buffer. -/
theorem load_lv_data_loop_spec (rb : Nat → Nat → List Nat)
    (lv_tags : List LV_tags) (key : Nat)
    (hread : ∀ o s, (rb o s).length = s) :
    ∀ fuel res i out segs,
      load_lv_data_loop rb lv_tags key fuel res i = some out →
      res = concat_segments rb segs →
      contiguous_from 0 segs →
      (∀ t ∈ segs, t ∈ lv_tags ∧ t.key = key) →
      ∃ segs2, out = concat_segments rb segs2 ∧ contiguous_from 0 segs2
        ∧ (∀ t ∈ segs2, t ∈ lv_tags ∧ t.key = key) := by
  intro fuel
  induction fuel with
  | zero => intro res i out segs h; cases h
  | succ fuel ih =>
    intro res i out segs h hres hcont hmem
    simp only [load_lv_data_loop] at h
    split at h
    case isTrue hlt =>
      split at h
      case isTrue hcond =>
        refine ih _ _ _ (segs ++ [lv_tags.get ⟨i, hlt⟩]) h ?_ ?_ ?_
        · rw [concat_segments_append, hres]
          simp [concat_segments]
        · refine contiguous_from_append_single _ segs 0 hcont ?_
          rw [← hcond.2, hres, concat_segments_length rb hread]
          omega
        · intro t ht
          rcases List.mem_append.mp ht with h1 | h2
          · exact hmem t h1
          · rcases List.mem_singleton.mp h2 with rfl
            exact ⟨lv_tags.get_mem _ _, hcond.1.symm⟩
      case isFalse hcond =>
        exact ih _ _ _ segs h hres hcont hmem
    case isFalse hlt =>
      obtain rfl := Option.some_inj.mp h
      exact ⟨segs, hres, hcont, hmem⟩

/-- The accumulated buffer never shrinks across the scan loop. -/
theorem load_lv_data_loop_mono (rb : Nat → Nat → List Nat)
    (lv_tags : List LV_tags) (key : Nat) :
    ∀ fuel res i out,
      load_lv_data_loop rb lv_tags key fuel res i = some out →
      res.length ≤ out.length := by
  intro fuel
  induction fuel with
  | zero => intro res i out h; cases h
  | succ fuel ih =>
    intro res i out h
    simp only [load_lv_data_loop] at h
    split at h
    case isTrue hlt =>
      split at h
      case isTrue hcond =>
        have := ih _ _ _ h
        simp only [List.length_append] at this
        omega
      case isFalse hcond => exact ih _ _ _ h
    case isFalse hlt =>
      obtain rfl := Option.some_inj.mp h
      exact Nat.le_refl _

/-- If the scan loop starting from an empty buffer finishes with an empty
buffer, then no segment at an index it could reach matches the key at
offset 0. -/
theorem load_lv_data_loop_empty_no_match (rb : Nat → Nat → List Nat)
    (lv_tags : List LV_tags) (key : Nat)
    (hread : ∀ o s, (rb o s).length = s) :
    ∀ fuel i, load_lv_data_loop rb lv_tags key fuel [] i = some [] →
      ∀ j (hj : j < lv_tags.length), i ≤ j →
        ¬((lv_tags.get ⟨j, hj⟩).key = key
          ∧ (lv_tags.get ⟨j, hj⟩).seg_offset = 0) := by
  intro fuel
  induction fuel with
  | zero => intro i h; cases h
  | succ fuel ih =>
    intro i h j hj hij
    simp only [load_lv_data_loop] at h
    split at h
    case isTrue hlt =>
      split at h
      case isTrue hcond =>
        by_cases hz : (lv_tags.get ⟨i, hlt⟩).size = 0
        · have hnil : ([] : List Nat) ++
              rb (lv_tags.get ⟨i, hlt⟩).offset (lv_tags.get ⟨i, hlt⟩).size =
              [] := by
            rw [List.nil_append, ← List.length_eq_zero, hread, hz]
          rw [hnil] at h
          exact absurd ⟨hcond.1.symm, by simpa using hcond.2.symm⟩
            (ih 0 h i hlt (Nat.zero_le _))
        · have hm := load_lv_data_loop_mono rb lv_tags key fuel _ 0 [] h
          simp only [List.length_append, List.length_nil, hread] at hm
          omega
      case isFalse hcond =>
        rcases Nat.eq_or_lt_of_le hij with rfl | hlt2
        · intro hcontra
          exact hcond ⟨hcontra.1.symm, by simpa using hcontra.2.symm⟩
        · exact ih (i + 1) h j hj hlt2
    case isFalse hlt =>
      exact absurd (Nat.lt_of_le_of_lt hij hj) hlt

/-- If no segment matches the key at offset 0, the scan loop terminates with
an empty buffer (given fuel for one pass over the collection). -/
theorem load_lv_data_loop_no_match (rb : Nat → Nat → List Nat)
    (lv_tags : List LV_tags) (key : Nat)
    (hno : ∀ j (hj : j < lv_tags.length),
      ¬((lv_tags.get ⟨j, hj⟩).key = key
        ∧ (lv_tags.get ⟨j, hj⟩).seg_offset = 0)) :
    ∀ fuel i, lv_tags.length - i < fuel →
      load_lv_data_loop rb lv_tags key fuel [] i = some [] := by
  intro fuel
  induction fuel with
  | zero => intro i h; omega
  | succ fuel ih =>
    intro i hfuel
    simp only [load_lv_data_loop]
    split
    case isTrue hlt =>
      have h' : ¬(key = (lv_tags.get ⟨i, hlt⟩).key
          ∧ ([] : List Nat).length = (lv_tags.get ⟨i, hlt⟩).seg_offset) := by
        intro hcontra
        exact hno i hlt ⟨hcontra.1.symm, by simpa using hcontra.2.symm⟩
      rw [if_neg h']
      exact ih (i + 1) (by omega)
    case isFalse hlt => rfl

/-- C3: `load_lv_data(key)` returns the concatenation of the segments
recorded for the key — formed by the restarting scan embodied in
`load_lv_data_loop` — and on success the value is the concatenation of
matching segments whose offsets form a contiguous partition `[0, total)`
with `total` the sum of the segment sizes; it fails with the
`LongValueNotFound` error iff no segment matches (i.e. iff no segment for
the key starts at offset 0, so that the scan can never start). -/
theorem c3_load_lv_data (read_bytes : Nat → Nat → List Nat)
    (lv_tags : List LV_tags) (key fuel : Nat)
    (hread : ∀ o s, (read_bytes o s).length = s) :
    (∀ v, load_lv_data read_bytes lv_tags key fuel = some (.ok v) →
      ∃ segs, segs ≠ []
        ∧ (∀ t ∈ segs, t ∈ lv_tags ∧ t.key = key)
        ∧ v = concat_segments read_bytes segs
        ∧ contiguous_from 0 segs
        ∧ v.length = sum_sizes segs)
    ∧ (∀ e, load_lv_data read_bytes lv_tags key fuel = some (.error e) →
        ∀ t ∈ lv_tags, ¬(t.key = key ∧ t.seg_offset = 0))
    ∧ (lv_tags.length + 1 ≤ fuel →
        (∀ t ∈ lv_tags, ¬(t.key = key ∧ t.seg_offset = 0)) →
        load_lv_data read_bytes lv_tags key fuel =
          some (.error "LV key not found")) := by
  refine ⟨?_, ?_, ?_⟩
  · intro v hv
    cases hloop : load_lv_data_loop read_bytes lv_tags key fuel [] 0 with
    | none =>
      simp only [load_lv_data, hloop] at hv
      exact Option.noConfusion hv
    | some res =>
      simp only [load_lv_data, hloop] at hv
      by_cases hlen : res.length > 0
      · rw [if_pos hlen] at hv
        have hv' : v = res := by
          have := Option.some_inj.mp hv
          exact (Except.ok.inj this).symm
        rcases load_lv_data_loop_spec read_bytes lv_tags key hread fuel [] 0
            res [] hloop rfl trivial (by simp) with ⟨segs, hc, hcont, hmem⟩
        refine ⟨segs, ?_, hmem, ?_, hcont, ?_⟩
        · intro hnil
          rw [hnil] at hc
          simp only [concat_segments] at hc
          rw [hc] at hlen
          simp at hlen
        · rw [hv', hc]
        · rw [hv', hc, concat_segments_length read_bytes hread]
      · rw [if_neg hlen] at hv
        cases Option.some_inj.mp hv
  · intro e he t hmem
    cases hloop : load_lv_data_loop read_bytes lv_tags key fuel [] 0 with
    | none =>
      simp only [load_lv_data, hloop] at he
      exact Option.noConfusion he
    | some res =>
      simp only [load_lv_data, hloop] at he
      by_cases hlen : res.length > 0
      · rw [if_pos hlen] at he
        cases Option.some_inj.mp he
      · rw [if_neg hlen] at he
        have hres : res = [] := by
          rw [← List.length_eq_zero]
          omega
        subst hres
        rcases List.mem_iff_get.mp hmem with ⟨⟨j, hj⟩, rfl⟩
        exact load_lv_data_loop_empty_no_match read_bytes lv_tags key hread
          fuel 0 hloop j hj (Nat.zero_le _)
  · intro hfuel hno
    have hno' : ∀ j (hj : j < lv_tags.length),
        ¬((lv_tags.get ⟨j, hj⟩).key = key
          ∧ (lv_tags.get ⟨j, hj⟩).seg_offset = 0) :=
      fun j hj => hno _ (lv_tags.get_mem _ _)
    have hloop := load_lv_data_loop_no_match read_bytes lv_tags key hno'
      fuel 0 (by omega)
    unfold load_lv_data
    rw [hloop]
    rfl

/-- Witness for `c3_load_lv_data`: a collection holding one segment for
key 7 at offset 4 (never at offset 0), so reassembly of key 7 fails with
the long-value-not-found error. -/
theorem c3_load_lv_data_witness :
    load_lv_data (fun o s => List.replicate s o)
      [{ key := 7, seg_offset := 4, size := 1, offset := 0 }] 7 2 =
      some (.error "LV key not found") :=
  (c3_load_lv_data (fun o s => List.replicate s o)
      [{ key := 7, seg_offset := 4, size := 1, offset := 0 }] 7 2
      (fun o s => by simp)).2.2 (by decide) (by decide)

/-! ## Theorems: C6 (2Q page cache) -/

theorem lastN_zero (l : List Nat) : lastN 0 l = [] := by
  simp [lastN]

theorem lastN_of_le (n : Nat) (l : List Nat) (h : l.length ≤ n) :
    lastN n l = l := by
  simp [lastN, Nat.sub_eq_zero_of_le h]

theorem lastN_cons (n a : Nat) (X : List Nat) (h : n ≤ X.length) :
    lastN n (a :: X) = lastN n X := by
  unfold lastN
  have hl : (a :: X).length - n = (X.length - n) + 1 := by
    simp only [List.length_cons]
    omega
  rw [hl, List.drop_succ_cons]

/-- A cache within its bound stays within its bound across a read. -/
theorem cacheRead_size_le (cap : Nat) (c : Cache2Q) (k : Nat)
    (h : c.size ≤ cap) : ((cacheRead cap c k).2).size ≤ cap := by
  unfold cacheRead
  by_cases hc : c.containsKey k = true
  · rw [if_pos hc]
    unfold Cache2Q.touch
    by_cases h1 : k ∈ c.recent
    · rw [if_pos h1]
      unfold Cache2Q.size at h ⊢
      simp only [List.length_append, List.length_singleton,
        List.length_erase]
      have hr : 1 ≤ c.recent.length := List.length_pos_of_mem h1
      by_cases h2 : k ∈ c.frequent <;> simp [h1, h2] <;> omega
    · rw [if_neg h1]
      by_cases h2 : k ∈ c.frequent
      · rw [if_pos h2]
        unfold Cache2Q.size at h ⊢
        simp only [List.length_append, List.length_singleton,
          List.length_erase]
        have hf : 1 ≤ c.frequent.length := List.length_pos_of_mem h2
        simp [h2]
        omega
      · rw [if_neg h2]
        exact h
  · rw [if_neg hc]
    unfold Cache2Q.insertKey
    by_cases hsz : ({ c with recent := c.recent ++ [k] } : Cache2Q).size ≤ cap
    · simpa using if_pos hsz ▸ hsz
    · rw [if_neg hsz]
      have hne : (c.recent ++ [k]).length ≠ 0 := by simp
      rw [if_pos hne]
      unfold Cache2Q.size at h ⊢
      simp only [List.length_drop, List.length_append,
        List.length_singleton]
      omega

/-- Reading a sequence of fresh, pairwise-distinct pages through a cache
whose frequent queue is empty leaves exactly the last `cap` admitted pages
in the recent queue. -/
theorem cacheReadSeq_fresh (cap : Nat) :
    ∀ (L r : List Nat), (r ++ L).Nodup → r.length ≤ cap →
      cacheReadSeq cap ⟨r, []⟩ L = ⟨lastN cap (r ++ L), []⟩ := by
  intro L
  induction L with
  | nil =>
    intro r hnd hle
    simp [cacheReadSeq, lastN_of_le cap r hle]
  | cons k ks ih =>
    intro r hnd hle
    have hkr : k ∉ r := by
      have hd := List.disjoint_of_nodup_append hnd
      exact fun hin => hd hin (List.mem_cons_self k ks)
    have hcont : Cache2Q.containsKey ⟨r, []⟩ k = false := by
      simp [Cache2Q.containsKey, hkr]
    show cacheReadSeq cap (cacheRead cap ⟨r, []⟩ k).2 ks = _
    rw [cacheRead, hcont]
    simp only [Bool.false_eq_true, if_false]
    unfold Cache2Q.insertKey
    by_cases hsz : ({ recent := r ++ [k], frequent := [] } : Cache2Q).size ≤ cap
    · rw [if_pos hsz]
      have hnd' : ((r ++ [k]) ++ ks).Nodup := by
        rw [List.append_assoc, List.singleton_append]
        exact hnd
      have hle' : (r ++ [k]).length ≤ cap := by
        simpa [Cache2Q.size] using hsz
      rw [ih (r ++ [k]) hnd' hle', List.append_assoc, List.singleton_append]
    · rw [if_neg hsz]
      have hne : (({ recent := r ++ [k], frequent := [] } :
          Cache2Q).recent).length ≠ 0 := by simp
      rw [if_pos hne]
      have hcap : r.length = cap := by
        unfold Cache2Q.size at hsz
        simp only [List.length_append, List.length_singleton,
          List.length_nil] at hsz
        omega
      cases r with
      | nil =>
        have hcap0 : cap = 0 := by simpa using hcap.symm
        have hnd' : (([] : List Nat) ++ ks).Nodup := by
          simpa using (List.nodup_cons.mp (by simpa using hnd)).2
        rw [show (([] : List Nat) ++ [k]).drop 1 = ([] : List Nat) from rfl]
        rw [ih [] hnd' (by omega)]
        simp [hcap0, lastN_zero]
      | cons a r' =>
        have hdrop : ((a :: r') ++ [k]).drop 1 = r' ++ [k] := by
          simp
        rw [hdrop]
        have hnd' : ((r' ++ [k]) ++ ks).Nodup := by
          rw [List.append_assoc, List.singleton_append]
          exact (List.nodup_cons.mp (by simpa using hnd)).2
        have hle' : (r' ++ [k]).length ≤ cap := by
          simp only [List.length_append, List.length_singleton]
          simp only [List.length_cons] at hcap
          omega
        rw [ih (r' ++ [k]) hnd' hle']
        have harg : (r' ++ [k]) ++ ks = r' ++ k :: ks := by
          rw [List.append_assoc, List.singleton_append]
        rw [harg]
        have hX : cap ≤ (r' ++ k :: ks).length := by
          simp only [List.length_append, List.length_cons]
          simp only [List.length_cons] at hcap
          omega
        have hcons : (a :: r') ++ k :: ks = a :: (r' ++ k :: ks) := rfl
        rw [hcons, lastN_cons cap a _ hX]

/-- Anything in a list is its last element or in its front. -/
theorem getLastD_mem_of_ne_nil (l : List Nat) (d : Nat) (h : l ≠ []) :
    l.getLastD d ∈ l := by
  induction l generalizing d with
  | nil => exact absurd rfl h
  | cons a t ih =>
    rw [List.getLastD_cons]
    cases t with
    | nil => simp [List.getLastD]
    | cons b u => exact List.mem_cons_of_mem a (ih a (by simp))

/-- C6: the 2Q page cache (as the spec describes it) never holds more than
`cap` pages, and after reading `cap + 1` pairwise-distinct pages into an
empty cache the first page read has been evicted — a re-read of it performs
a disk fetch — while the most recently read page has not: a re-read of it
is served from the cache. -/
theorem c6_cache_2q (cap : Nat) (L : List Nat) (h0 : Nat) (t : List Nat)
    (hcap : 1 ≤ cap) (hL : L = h0 :: t) (hnd : L.Nodup)
    (hlen : L.length = cap + 1) :
    (∀ c k, Cache2Q.size c ≤ cap → ((cacheRead cap c k).2).size ≤ cap)
    ∧ (cacheReadSeq cap ⟨[], []⟩ L).size ≤ cap
    ∧ (cacheRead cap (cacheReadSeq cap ⟨[], []⟩ L) h0).1 = true
    ∧ (cacheRead cap (cacheReadSeq cap ⟨[], []⟩ L) (L.getLastD 0)).1 =
        false := by
  have hseq : cacheReadSeq cap ⟨[], []⟩ L = ⟨lastN cap L, []⟩ := by
    have := cacheReadSeq_fresh cap L [] (by simpa using hnd) (by simp)
    simpa using this
  have hdrop : lastN cap L = t := by
    unfold lastN
    rw [hlen, hL]
    have : cap + 1 - cap = 1 := by omega
    rw [this, List.drop_succ_cons, List.drop_zero]
  refine ⟨fun c k => cacheRead_size_le cap c k, ?_, ?_, ?_⟩
  · rw [hseq, hdrop]
    unfold Cache2Q.size
    simp only [List.length_nil, Nat.add_zero]
    have : t.length = cap := by
      rw [hL] at hlen
      simpa using hlen
    omega
  · rw [hseq, hdrop]
    have hh : h0 ∉ t := by
      rw [hL] at hnd
      exact (List.nodup_cons.mp hnd).1
    unfold cacheRead
    have : Cache2Q.containsKey ⟨t, []⟩ h0 = false := by
      simp [Cache2Q.containsKey, hh]
    rw [this]
    simp
  · rw [hseq, hdrop]
    have htne : t ≠ [] := by
      intro hteq
      rw [hL, hteq] at hlen
      simp at hlen
      omega
    have hmem : L.getLastD 0 ∈ t := by
      rw [hL, List.getLastD_cons]
      exact getLastD_mem_of_ne_nil t h0 htne
    unfold cacheRead
    have hc' : Cache2Q.containsKey ⟨t, []⟩ (L.getLastD 0) = true := by
      unfold Cache2Q.containsKey
      simp only [Bool.or_eq_true, decide_eq_true_eq]
      exact Or.inl hmem
    rw [hc']
    simp

/-- Witness for `c6_cache_2q`: the spec's concrete scenario — capacity 10,
pages 2..=12 read in order; a re-read of page 2 fetches from disk, a
re-read of page 12 does not. -/
theorem c6_cache_2q_witness :
    (∀ c k, Cache2Q.size c ≤ 10 → ((cacheRead 10 c k).2).size ≤ 10)
    ∧ (cacheReadSeq 10 ⟨[], []⟩ [2, 3, 4, 5, 6, 7, 8, 9, 10, 11, 12]).size
        ≤ 10
    ∧ (cacheRead 10
        (cacheReadSeq 10 ⟨[], []⟩ [2, 3, 4, 5, 6, 7, 8, 9, 10, 11, 12])
        2).1 = true
    ∧ (cacheRead 10
        (cacheReadSeq 10 ⟨[], []⟩ [2, 3, 4, 5, 6, 7, 8, 9, 10, 11, 12])
        (([2, 3, 4, 5, 6, 7, 8, 9, 10, 11, 12] : List Nat).getLastD 0)).1 =
        false :=
  c6_cache_2q 10 [2, 3, 4, 5, 6, 7, 8, 9, 10, 11, 12] 2
    [3, 4, 5, 6, 7, 8, 9, 10, 11, 12] (by decide) (by decide) (by decide)
    (by decide)

/-! ## Theorems: C5 (mirror header agreement) -/

/-- `filled_header` only replaces a zero `format_revision`. -/
theorem filled_header_format_revision (p b : FileHeader) :
    (filled_header p b).format_revision =
      if p.format_revision = 0 then b.format_revision
      else p.format_revision := by
  by_cases h0 : p.format_revision = 0 <;>
    by_cases h1 : p.page_size = 0 <;> simp [filled_header, h0, h1]

/-- `filled_header` only replaces a zero `page_size`. -/
theorem filled_header_page_size (p b : FileHeader) :
    (filled_header p b).page_size =
      if p.page_size = 0 then b.page_size else p.page_size := by
  by_cases h0 : p.format_revision = 0 <;>
    by_cases h1 : p.page_size = 0 <;> simp [filled_header, h0, h1]

/-- `filled_header` leaves the format version alone. -/
theorem filled_header_format_version (p b : FileHeader) :
    (filled_header p b).format_version = p.format_version := by
  by_cases h0 : p.format_revision = 0 <;>
    by_cases h1 : p.page_size = 0 <;> simp [filled_header, h0, h1]

/-- C5 counterexample: the claim says that once the primary header passes
signature and checksum validation, open "fails only if the filled primary
still disagrees with the mirror on format-revision or page-size".  The
concrete header `headerVersion621` passes signature and checksum validation
and agrees with its mirror on both fields after filling, yet
`load_db_file_header` fails (with the unsupported-version error,
reader.rs:81-83). -/
theorem c5_counterexample :
    headerVersion621.signature = ESEDB_FILE_SIGNATURE
    ∧ headerVersion621.checksum = calc_crc32 headerVersion621
    ∧ (filled_header headerVersion621 mirrorForVersion621).format_revision =
        mirrorForVersion621.format_revision
    ∧ (filled_header headerVersion621 mirrorForVersion621).page_size =
        mirrorForVersion621.page_size
    ∧ load_db_file_header headerVersion621 mirrorForVersion621 =
        .error .UnsupportedVersion :=
  ⟨by decide, by decide, by decide, by decide, rfl⟩

/-- C5 amended: after the primary passes signature and checksum validation,
the mirror fills zero fields of the primary (`format_revision`,
`page_size`), and loading succeeds iff the filled primary agrees with the
mirror on format-revision and page-size AND the format version is `0x620`;
on success the pager reports the loaded (filled) header's revision, so a
primary with revision 0 takes the mirror's revision. -/
theorem c5_mirror_header_amended (primary backup : FileHeader)
    (hsig : primary.signature = ESEDB_FILE_SIGNATURE)
    (hcrc : primary.checksum = calc_crc32 primary) :
    (load_db_file_header primary backup = .ok (filled_header primary backup)
      ↔ ((filled_header primary backup).format_revision =
            backup.format_revision
          ∧ (filled_header primary backup).page_size = backup.page_size
          ∧ primary.format_version = 0x620))
    ∧ (primary.format_revision = 0 →
        (filled_header primary backup).format_revision =
          backup.format_revision)
    ∧ (∀ h, load_db_file_header primary backup = .ok h →
        h = filled_header primary backup
        ∧ reader_new primary backup = .ok
            { format_version := h.format_version
              format_revision := h.format_revision
              page_size := h.page_size
              last_page_number := h.page_size * 2 / h.page_size }) := by
  have hs : ¬primary.signature ≠ ESEDB_FILE_SIGNATURE := by simp [hsig]
  have hc : ¬primary.checksum ≠ calc_crc32 primary := by simp [hcrc]
  have hload : load_db_file_header primary backup =
      (if (filled_header primary backup).format_revision ≠
          backup.format_revision then .error .RevisionMismatch
        else if (filled_header primary backup).page_size ≠ backup.page_size
          then .error .PageSizeMismatch
        else if (filled_header primary backup).format_version ≠ 0x620 then
          .error .UnsupportedVersion
        else .ok (filled_header primary backup)) := by
    simp only [load_db_file_header, if_neg hs, if_neg hc, filled_header]
    by_cases h0 : primary.format_revision = 0 <;>
      by_cases h1 : primary.page_size = 0 <;>
        simp [h0, h1]
  refine ⟨?_, ?_, ?_⟩
  · rw [hload, filled_header_format_version]
    split_ifs with hrev hps hver
    · simp_all
    · simp_all
    · simp_all
    · simp_all
  · intro h0
    rw [filled_header_format_revision, if_pos h0]
  · intro h hok
    rw [hload] at hok
    split_ifs at hok
    have hh : h = filled_header primary backup := (Except.ok.inj hok).symm
    refine ⟨hh, ?_⟩
    have hl : load_db_file_header primary backup = .ok h := by
      rw [hload, hh]
      split_ifs
      rfl
    simp [reader_new, hl, Except.map]

/-- Witness for `c5_mirror_header_amended`: the spec's concrete scenario —
primary with `format_revision = 0`, mirror with revision `0x11` — loads
successfully and the pager thereafter reports revision `0x11`. -/
theorem c5_mirror_header_witness :
    load_db_file_header headerRevisionZero mirrorRevision11 =
      .ok (filled_header headerRevisionZero mirrorRevision11)
    ∧ (filled_header headerRevisionZero mirrorRevision11).format_revision =
        0x11
    ∧ reader_new headerRevisionZero mirrorRevision11 = .ok
        { format_version := 0x620, format_revision := 0x11,
          page_size := 4096, last_page_number := 2 } := by
  have H := c5_mirror_header_amended headerRevisionZero mirrorRevision11
    (by decide) (by decide)
  have hok := H.1.mpr (by decide)
  refine ⟨hok, by decide, ?_⟩
  have hr := (H.2.2 _ hok).2
  rw [hr]
  rfl

/-! ## Theorems: C8 (move_previous_row underflow) -/

/-- C8: `move_row` with `MovePrevious` on a cursor whose `page_tag_index`
is 0 — the state of an empty table after `open_table` — is not total: the
source computes `page_tag_index - 1` on a `usize` before dispatching on the
whence code, so the scan starts at the wrapped index `2^64 - 1` and
`page_tags[i]` panics (modelled `none`); in a debug build the subtraction
itself already panics.  (`MoveLast` on the same state survives in release
mode and returns `false`.) -/
theorem c8_move_previous_underflow :
    wsub_usize 0 1 = 2 ^ 64 - 1
    ∧ move_row dbEmptyTable 10 4 ⟨some emptyLeafPage, 0⟩ ESE_MovePrevious =
        none
    ∧ move_row dbEmptyTable 10 4 ⟨some emptyLeafPage, 0⟩ ESE_MoveLast =
        some (false, ⟨some emptyLeafPage, 0⟩) := by
  refine ⟨by decide, ?_, by decide⟩
  decide

/-! ## Forward iteration lemmas -/

/-- The forward row enumeration is independent of the step bound, as long
as the bound suffices. -/
theorem row_idxs_fwd_go_stable (tags : List PageTag) :
    ∀ n m i, tags.length - i ≤ n → tags.length - i ≤ m →
      row_idxs_fwd_go tags n i = row_idxs_fwd_go tags m i := by
  intro n
  induction n with
  | zero =>
    intro m i hn hm
    have hni : ¬i < tags.length := by omega
    cases m with
    | zero => rfl
    | succ m => simp [row_idxs_fwd_go, hni]
  | succ n ih =>
    intro m i hn hm
    by_cases hlt : i < tags.length
    · obtain ⟨m', rfl⟩ : ∃ m', m = m' + 1 := ⟨m - 1, by omega⟩
      have hrec := ih m' (i + 1) (by omega) (by omega)
      simp only [row_idxs_fwd_go, dif_pos hlt]
      by_cases hd : (tags.get ⟨i, hlt⟩).isDefunct <;> simp [hd, hrec]
    · cases m with
      | zero => simp [row_idxs_fwd_go, hlt]
      | succ m' => simp [row_idxs_fwd_go, hlt]

/-- The defunct-skip loop and the forward row enumeration agree: an empty
enumeration means the skip runs off the page, and a non-empty one means the
skip stops exactly on its first index. -/
theorem row_idxs_fwd_go_spec (tags : List PageTag) :
    ∀ n i, tags.length - i ≤ n →
      (row_idxs_fwd_go tags n i = [] →
        ¬skip_defunct_fwd_go tags n i < tags.length)
      ∧ (∀ j tl, row_idxs_fwd_go tags n i = j :: tl →
          skip_defunct_fwd_go tags n i = j ∧ j < tags.length
            ∧ tl = row_idxs_fwd tags (j + 1)) := by
  intro n
  induction n with
  | zero =>
    intro i hi
    have hni : ¬i < tags.length := by omega
    constructor
    · intro _
      exact hni
    · intro j tl hr
      cases hr
  | succ n ih =>
    intro i hi
    by_cases hlt : i < tags.length
    · by_cases hd : (tags.get ⟨i, hlt⟩).isDefunct
      · have h1 : row_idxs_fwd_go tags (n + 1) i =
            row_idxs_fwd_go tags n (i + 1) := by
          simp only [row_idxs_fwd_go, dif_pos hlt, if_pos hd]
        have h2 : skip_defunct_fwd_go tags (n + 1) i =
            skip_defunct_fwd_go tags n (i + 1) := by
          simp only [skip_defunct_fwd_go, dif_pos hlt, if_pos hd]
        rw [h1, h2]
        exact ih (i + 1) (by omega)
      · have h1 : row_idxs_fwd_go tags (n + 1) i =
            i :: row_idxs_fwd_go tags n (i + 1) := by
          simp only [row_idxs_fwd_go, dif_pos hlt, if_neg hd]
        have h2 : skip_defunct_fwd_go tags (n + 1) i = i := by
          simp only [skip_defunct_fwd_go, dif_pos hlt, if_neg hd]
        constructor
        · intro hr
          rw [h1] at hr
          cases hr
        · intro j tl hr
          rw [h1] at hr
          injection hr with hj htl
          subst hj
          refine ⟨h2, hlt, ?_⟩
          rw [← htl]
          exact row_idxs_fwd_go_stable tags n (tags.length - (i + 1)) (i + 1)
            (by omega) (by omega)
    · constructor
      · intro _
        have h2 : skip_defunct_fwd_go tags (n + 1) i = i := by
          simp only [skip_defunct_fwd_go, dif_neg hlt]
        rw [h2]
        exact hlt
      · intro j tl hr
        simp only [row_idxs_fwd_go, dif_neg hlt] at hr
        cases hr

/-- `row_idxs_fwd_go_spec` at the bound used by `row_idxs_fwd` and
`skip_defunct_fwd`. -/
theorem row_idxs_fwd_spec (tags : List PageTag) (i : Nat) :
    (row_idxs_fwd tags i = [] →
      ¬skip_defunct_fwd tags i < tags.length)
    ∧ (∀ j tl, row_idxs_fwd tags i = j :: tl →
        skip_defunct_fwd tags i = j ∧ j < tags.length
          ∧ tl = row_idxs_fwd tags (j + 1)) :=
  row_idxs_fwd_go_spec tags (tags.length - i) i (Nat.le_refl _)

/-! ## Theorems: C1 (sibling back-link validation) -/

/-- C1 counterexample: the claim states that the back-link is validated by
catalog loading, long-value metadata loading, *and* cursor row iteration
alike.  On the concrete chain `pageBrokenA → pageBrokenB`, whose second
page carries the back-link 99 (≠ 0 and ≠ 1), `move_row`'s `MoveNext`
crosses to page 2 and returns `true` — it never validates the link —
while the catalog walk on the same chain fails with `SiblingChainBroken`. -/
theorem c1_counterexample :
    pageBrokenB.previous_page ≠ 0
    ∧ pageBrokenB.previous_page ≠ pageBrokenA.page_number
    ∧ pageBrokenA.next_page = pageBrokenB.page_number
    ∧ move_row dbBroken 10 4 ⟨some pageBrokenA, 1⟩ ESE_MoveNext =
        some (true, ⟨some pageBrokenB, 1⟩)
    ∧ catalog_chain_loop dbBroken 10 pageBrokenA.page_number 1 =
        some (.error .SiblingChainBroken) :=
  ⟨by decide, by decide, by decide, by decide, rfl⟩

theorem last_visited_cons (prev : Nat) (p : DbPage) (rest : List DbPage) :
    last_visited prev (p :: rest) = last_visited p.page_number rest := by
  unfold last_visited
  rw [List.map_cons, List.getLastD_cons]

/-- At any depth of the chain walked by the `load_catalog` loop, a page
whose nonzero back-link does not name the previously visited page makes
the whole loop fail with `SiblingChainBroken`. -/
theorem catalog_chain_loop_broken (db : Nat → Option DbPage)
    (chain : List DbPage) (q : DbPage) :
    ∀ fuel prev, db q.page_number = some q → q.page_number ≠ 0 →
      q.previous_page ≠ 0 → last_visited prev chain ≠ q.previous_page →
      chain.length + 1 ≤ fuel →
      catalog_walk_ok db prev chain q.page_number = true →
      catalog_chain_loop db fuel (chain_head_pn chain q.page_number) prev =
        some (.error .SiblingChainBroken) := by
  induction chain with
  | nil =>
    intro fuel prev hq hqn hq0 hqp hfuel _
    obtain ⟨f, rfl⟩ : ∃ f, fuel = f + 1 := ⟨fuel - 1, by omega⟩
    have hqp' : prev ≠ q.previous_page := hqp
    simp only [chain_head_pn, catalog_chain_loop]
    rw [if_neg hqn]
    simp only [hq]
    rw [if_pos ⟨hq0, hqp'⟩]
  | cons p rest ih =>
    intro fuel prev hq hqn hq0 hqp hfuel hwalk
    obtain ⟨f, rfl⟩ : ∃ f, fuel = f + 1 := ⟨fuel - 1, by omega⟩
    simp only [catalog_walk_ok, Bool.and_eq_true, bne_iff_ne, beq_iff_eq,
      decide_eq_true_eq, Bool.or_eq_true] at hwalk
    obtain ⟨⟨⟨⟨⟨hpn, hdb⟩, hback⟩, hleaf⟩, hnext⟩, hrest⟩ := hwalk
    have hloop := ih f p.page_number hq hqn hq0
      (by rw [← last_visited_cons]; exact hqp)
      (by simp only [List.length_cons] at hfuel; omega) hrest
    simp only [chain_head_pn, catalog_chain_loop]
    rw [if_neg hpn]
    simp only [hdb]
    rw [if_neg (fun hc => hback.elim (fun h => hc.1 h) (fun h => hc.2 h)),
      if_neg (by simp [hleaf]), hnext, hloop]

/-- At any depth of the chain walked by the `load_lv_metadata` loop, a
page whose nonzero back-link does not name the previously visited page
makes the whole loop fail with `SiblingChainBroken`. -/
theorem lv_chain_loop_broken (db : Nat → Option DbPage)
    (chain : List DbPage) (q : DbPage) :
    ∀ fuel prev, db q.page_number = some q → q.page_number ≠ 0 →
      q.previous_page ≠ 0 → last_visited prev chain ≠ q.previous_page →
      chain.length + 1 ≤ fuel →
      lv_walk_ok db prev chain q.page_number = true →
      lv_chain_loop db fuel (chain_head_pn chain q.page_number) prev =
        some (.error .SiblingChainBroken) := by
  induction chain with
  | nil =>
    intro fuel prev hq hqn hq0 hqp hfuel _
    obtain ⟨f, rfl⟩ : ∃ f, fuel = f + 1 := ⟨fuel - 1, by omega⟩
    have hqp' : prev ≠ q.previous_page := hqp
    simp only [chain_head_pn, lv_chain_loop]
    rw [if_neg hqn]
    simp only [hq]
    rw [if_pos ⟨hq0, hqp'⟩]
  | cons p rest ih =>
    intro fuel prev hq hqn hq0 hqp hfuel hwalk
    obtain ⟨f, rfl⟩ : ∃ f, fuel = f + 1 := ⟨fuel - 1, by omega⟩
    simp only [lv_walk_ok, Bool.and_eq_true, bne_iff_ne, beq_iff_eq,
      decide_eq_true_eq, Bool.or_eq_true] at hwalk
    obtain ⟨⟨⟨⟨⟨⟨hpn, hdb⟩, hback⟩, hleaf⟩, hlv⟩, hnext⟩, hrest⟩ := hwalk
    have hloop := ih f p.page_number hq hqn hq0
      (by rw [← last_visited_cons]; exact hqp)
      (by simp only [List.length_cons] at hfuel; omega) hrest
    simp only [chain_head_pn, lv_chain_loop]
    rw [if_neg hpn]
    simp only [hdb]
    rw [if_neg (fun hc => hback.elim (fun h => hc.1 h) (fun h => hc.2 h)),
      if_neg (by simp [hleaf, hlv])]
    dsimp only
    rw [hnext, hloop]

/-- C1 amended: traversals of a sibling leaf chain validate the back-link
in catalog loading and in long-value metadata loading — at whatever chain
depth a visited page's nonzero `previous_page` differs from the
previously visited page number, those loops fail with
`SiblingChainBroken` — but cursor row iteration (`move_row` with
`MoveNext` crossing to `next_page`) performs no such check and positions
on the next page's first row. -/
theorem c1_sibling_check_amended (db : Nat → Option DbPage) (fuel : Nat)
    (chain : List DbPage) (q : DbPage) (prev : Nat)
    (hq : db q.page_number = some q) (hqn : q.page_number ≠ 0)
    (hqprev0 : q.previous_page ≠ 0)
    (hqprev : last_visited prev chain ≠ q.previous_page)
    (hfuel : chain.length + 2 ≤ fuel) :
    (catalog_walk_ok db prev chain q.page_number = true →
      catalog_chain_loop db fuel (chain_head_pn chain q.page_number) prev =
        some (.error .SiblingChainBroken))
    ∧ (lv_walk_ok db prev chain q.page_number = true →
      lv_chain_loop db fuel (chain_head_pn chain q.page_number) prev =
        some (.error .SiblingChainBroken))
    ∧ (∀ p i j tl, db p.page_number = some p →
        p.next_page = q.page_number →
        row_idxs_fwd p.page_tags i = [] →
        row_idxs_fwd q.page_tags 1 = j :: tl →
        move_next_loop db fuel p i = some (true, q, j)) := by
  refine ⟨fun hw => catalog_chain_loop_broken db chain q fuel prev hq hqn
      hqprev0 hqprev (by omega) hw,
    fun hw => lv_chain_loop_broken db chain q fuel prev hq hqn
      hqprev0 hqprev (by omega) hw, ?_⟩
  intro p i j tl hp hnext hpi hqj
  obtain ⟨f, rfl⟩ : ∃ f, fuel = f + 2 := ⟨fuel - 2, by omega⟩
  have hskipP : ¬skip_defunct_fwd p.page_tags i < p.page_tags.length :=
    (row_idxs_fwd_spec p.page_tags i).1 hpi
  have hskipQ := (row_idxs_fwd_spec q.page_tags 1).2 j tl hqj
  simp only [move_next_loop]
  rw [if_neg hskipP, if_pos (hnext ▸ hqn), hnext]
  simp only [hq]
  rw [hskipQ.1, if_pos hskipQ.2.1]

/-! ## Chain lemmas and the forward loop specification -/

theorem chain_next_nil_iff (db : Nat → Option DbPage) (p : DbPage) :
    chain_next db p [] = true ↔ p.page_number ≠ 0 ∧ p.next_page = 0 := by
  simp [chain_next]

theorem chain_next_cons_iff (db : Nat → Option DbPage) (p q : DbPage)
    (rest : List DbPage) :
    chain_next db p (q :: rest) = true ↔
      p.page_number ≠ 0 ∧ p.next_page = q.page_number
        ∧ db q.page_number = some q ∧ chain_next db q rest = true := by
  simp [chain_next, and_assoc]

theorem chain_next_head_ne (db : Nat → Option DbPage) (p : DbPage)
    (rest : List DbPage) (h : chain_next db p rest = true) :
    p.page_number ≠ 0 := by
  cases rest with
  | nil => exact ((chain_next_nil_iff db p).mp h).1
  | cons q rest => exact ((chain_next_cons_iff db p q rest).mp h).1

theorem chain_last_cons (p q : DbPage) (rest : List DbPage) :
    chain_last p (q :: rest) = chain_last q rest := by
  cases rest with
  | nil => rfl
  | cons r t => simp only [chain_last, List.getLastD_cons]

theorem rows_from_cons_of_idxs (p : DbPage) (i : Nat) (rest : List DbPage)
    (j0 : Nat) (tl0 : List Nat)
    (hri : row_idxs_fwd p.page_tags i = j0 :: tl0) :
    rows_from p i rest = (p.page_number, j0) ::
      (tl0.map (fun j => (p.page_number, j)) ++ chain_rows rest) := by
  simp [rows_from, hri]

theorem rows_from_skip_page (p : DbPage) (i : Nat) (q : DbPage)
    (rest : List DbPage) (hri : row_idxs_fwd p.page_tags i = []) :
    rows_from p i (q :: rest) = rows_from q 1 rest := by
  simp [rows_from, hri, chain_rows, page_rows]

/-- What `move_next_loop` returns, in terms of the chain's remaining rows:
the first remaining row (together with the state needed to continue the
iteration), or `false` reached on the chain's last page. -/
theorem move_next_loop_spec (db : Nat → Option DbPage) :
    ∀ (rest : List DbPage) (p : DbPage) (i fuel : Nat),
      chain_next db p rest = true → rest.length + 1 ≤ fuel →
      (rows_from p i rest = [] →
        ∃ m, move_next_loop db fuel p i =
          some (false, chain_last p rest, m))
      ∧ (∀ pn j tl, rows_from p i rest = (pn, j) :: tl →
          ∃ q rest2, move_next_loop db fuel p i = some (true, q, j)
            ∧ q.page_number = pn
            ∧ chain_next db q rest2 = true
            ∧ rest2.length ≤ rest.length
            ∧ rows_from q (j + 1) rest2 = tl
            ∧ chain_last q rest2 = chain_last p rest) := by
  intro rest
  induction rest with
  | nil =>
    intro p i fuel hc hf
    obtain ⟨g, rfl⟩ : ∃ g, fuel = g + 1 := ⟨fuel - 1, by omega⟩
    obtain ⟨hpn, hnext0⟩ := (chain_next_nil_iff db p).mp hc
    constructor
    · intro hrows
      have hri : row_idxs_fwd p.page_tags i = [] := by
        simpa [rows_from, chain_rows] using hrows
      have hskip := (row_idxs_fwd_spec p.page_tags i).1 hri
      refine ⟨skip_defunct_fwd p.page_tags i, ?_⟩
      simp only [move_next_loop]
      rw [if_neg hskip, if_neg (by simp [hnext0])]
      rfl
    · intro pn j tl hrows
      cases hri : row_idxs_fwd p.page_tags i with
      | nil =>
        have hempty : rows_from p i [] = [] := by
          simp [rows_from, hri, chain_rows]
        rw [hempty] at hrows
        cases hrows
      | cons j0 tl0 =>
        rw [rows_from_cons_of_idxs p i [] j0 tl0 hri] at hrows
        injection hrows with h1 h2
        obtain ⟨rfl, rfl⟩ := Prod.mk.inj h1
        have hskip := (row_idxs_fwd_spec p.page_tags i).2 j0 tl0 hri
        refine ⟨p, [], ?_, rfl, hc, Nat.le_refl _, ?_, rfl⟩
        · simp only [move_next_loop]
          rw [hskip.1, if_pos hskip.2.1]
        · have hgoal : rows_from p (j0 + 1) [] =
              tl0.map (fun j => (p.page_number, j)) ++ chain_rows [] := by
            simp only [rows_from, ← hskip.2.2]
          rw [hgoal]
          exact h2
  | cons qq rest ih =>
    intro p i fuel hc hf
    obtain ⟨g, rfl⟩ : ∃ g, fuel = g + 1 := ⟨fuel - 1, by omega⟩
    obtain ⟨hpn, hnext, hdbq, hcq⟩ := (chain_next_cons_iff db p qq rest).mp hc
    have hqn : qq.page_number ≠ 0 := chain_next_head_ne db qq rest hcq
    cases hri : row_idxs_fwd p.page_tags i with
    | cons j0 tl0 =>
      have hskip := (row_idxs_fwd_spec p.page_tags i).2 j0 tl0 hri
      have hloop : move_next_loop db (g + 1) p i = some (true, p, j0) := by
        simp only [move_next_loop]
        rw [hskip.1, if_pos hskip.2.1]
      constructor
      · intro hrows
        rw [rows_from_cons_of_idxs p i (qq :: rest) j0 tl0 hri] at hrows
        cases hrows
      · intro pn j tl hrows
        rw [rows_from_cons_of_idxs p i (qq :: rest) j0 tl0 hri] at hrows
        injection hrows with h1 h2
        obtain ⟨rfl, rfl⟩ := Prod.mk.inj h1
        refine ⟨p, qq :: rest, hloop, rfl, hc, Nat.le_refl _, ?_, rfl⟩
        have hgoal : rows_from p (j0 + 1) (qq :: rest) =
            tl0.map (fun j => (p.page_number, j)) ++
              chain_rows (qq :: rest) := by
          simp only [rows_from, ← hskip.2.2]
        rw [hgoal]
        exact h2
    | nil =>
      have hskip := (row_idxs_fwd_spec p.page_tags i).1 hri
      have hcross : move_next_loop db (g + 1) p i =
          move_next_loop db g qq 1 := by
        simp only [move_next_loop]
        rw [if_neg hskip, if_pos (hnext ▸ hqn), hnext]
        simp only [hdbq]
      have hrw := rows_from_skip_page p i qq rest hri
      have hg : rest.length + 1 ≤ g := by
        simp only [List.length_cons] at hf
        omega
      have IH := ih qq 1 g hcq hg
      constructor
      · intro hrows
        rw [hrw] at hrows
        obtain ⟨m, hm⟩ := IH.1 hrows
        refine ⟨m, ?_⟩
        rw [hcross, hm, chain_last_cons]
      · intro pn j tl hrows
        rw [hrw] at hrows
        obtain ⟨q, rest2, hm, hqpn, hcq2, hlen2, hrows2, hlast2⟩ :=
          IH.2 pn j tl hrows
        refine ⟨q, rest2, ?_, hqpn, hcq2, ?_, hrows2, ?_⟩
        · rw [hcross, hm]
        · simp only [List.length_cons]
          omega
        · rw [hlast2, chain_last_cons]

/-- `move_row` with `MoveNext` on a positioned cursor, reduced to the inner
loop. -/
theorem move_row_next_eq (db : Nat → Option DbPage) (fuel fdp : Nat)
    (p : DbPage) (jj : Nat) :
    move_row db fuel fdp ⟨some p, jj⟩ ESE_MoveNext =
      (match move_next_loop db fuel p (jj + 1) with
        | none => none
        | some (true, q, j) =>
          some (true, { current_page := some q, page_tag_index := j })
        | some (false, q, _) =>
          some (false, { current_page := some q, page_tag_index := jj })) :=
  rfl

theorem run_moves_cons (db : Nat → Option DbPage) (fuel fdp : Nat)
    (t : TableCursor) (c : Nat) (cs : List Nat) :
    run_moves db fuel fdp t (c :: cs) =
      (match move_row db fuel fdp t c with
        | none => none
        | some (b, t2) =>
          match run_moves db fuel fdp t2 cs with
          | none => none
          | some bs => some (b :: bs)) := rfl

theorem rows_trace_cons (db : Nat → Option DbPage) (fuel fdp : Nat)
    (t : TableCursor) (c : Nat) (cs : List Nat) :
    rows_trace db fuel fdp t (c :: cs) =
      (match move_row db fuel fdp t c with
        | none => none
        | some (b, t2) =>
          match rows_trace db fuel fdp t2 cs with
          | none => none
          | some es =>
            some ((match b, t2.current_page with
              | true, some pg => some (pg.page_number, t2.page_tag_index)
              | _, _ => none) :: es)) := rfl

/-- The boolean results and the visited rows of `MoveNext` iteration from a
positioned cursor: one `true` per remaining row, then one `false`. -/
theorem run_next_spec (db : Nat → Option DbPage) (fuel fdp : Nat) :
    ∀ (rows : List (Nat × Nat)) (p : DbPage) (jj : Nat)
      (rest : List DbPage),
      chain_next db p rest = true → rest.length + 1 ≤ fuel →
      rows_from p (jj + 1) rest = rows →
      run_moves db fuel fdp ⟨some p, jj⟩
          (List.replicate (rows.length + 1) ESE_MoveNext) =
        some (List.replicate rows.length true ++ [false])
      ∧ rows_trace db fuel fdp ⟨some p, jj⟩
          (List.replicate (rows.length + 1) ESE_MoveNext) =
        some (rows.map some ++ [none]) := by
  intro rows
  induction rows with
  | nil =>
    intro p jj rest hc hf hrows
    obtain ⟨m, hloop⟩ := (move_next_loop_spec db rest p (jj + 1) fuel hc
      hf).1 hrows
    constructor
    · simp only [List.replicate_succ, List.replicate_zero, run_moves,
        move_row_next_eq, hloop]
      rfl
    · simp only [List.replicate_succ, List.replicate_zero, rows_trace,
        move_row_next_eq, hloop]
      rfl
  | cons r rows ih =>
    obtain ⟨a, b⟩ := r
    intro p jj rest hc hf hrows
    obtain ⟨q, rest2, hloop, hqpn, hcq2, hlen2, hrows2, _⟩ :=
      (move_next_loop_spec db rest p (jj + 1) fuel hc hf).2 a b rows hrows
    have IH := ih q b rest2 hcq2 (by omega) hrows2
    have e1 : ((a, b) :: rows).length + 1 = rows.length + 1 + 1 := by simp
    constructor
    · rw [e1, List.replicate_succ, run_moves_cons, move_row_next_eq, hloop]
      dsimp only
      rw [IH.1, List.length_cons, List.replicate_succ]
      rfl
    · rw [e1, List.replicate_succ, rows_trace_cons, move_row_next_eq, hloop]
      dsimp only
      rw [IH.2, hqpn]
      rfl

/-! ## Backward iteration lemmas -/

theorem wsub_usize_one (a : Nat) (h : 1 ≤ a) : wsub_usize a 1 = a - 1 := by
  unfold wsub_usize
  rw [if_pos h]

theorem row_idxs_fwd_unfold (tags : List PageTag) (i : Nat)
    (hlt : i < tags.length) :
    row_idxs_fwd tags i =
      if (tags.get ⟨i, hlt⟩).isDefunct then row_idxs_fwd tags (i + 1)
      else i :: row_idxs_fwd tags (i + 1) := by
  unfold row_idxs_fwd
  have hn : tags.length - i = (tags.length - (i + 1)) + 1 := by omega
  rw [hn]
  simp only [row_idxs_fwd_go, dif_pos hlt]

theorem row_idxs_fwd_stop (tags : List PageTag) (i : Nat)
    (hge : ¬i < tags.length) : row_idxs_fwd tags i = [] := by
  unfold row_idxs_fwd
  have hn : tags.length - i = 0 := by omega
  rw [hn]
  rfl

theorem defunct_at_of_lt (tags : List PageTag) (i : Nat)
    (hlt : i < tags.length) :
    defunct_at tags i = (tags.get ⟨i, hlt⟩).isDefunct := by
  unfold defunct_at
  rw [List.get?_eq_get hlt]

/-- The ascending row enumeration as a filtered interval. -/
theorem row_idxs_fwd_eq_filter (tags : List PageTag) :
    ∀ n i, tags.length - i ≤ n →
      row_idxs_fwd tags i =
        (List.range' i (tags.length - i)).filter
          (fun j => !defunct_at tags j) := by
  intro n
  induction n with
  | zero =>
    intro i hi
    have hni : ¬i < tags.length := by omega
    have hn : tags.length - i = 0 := by omega
    rw [row_idxs_fwd_stop tags i hni, hn, List.range'_zero,
      List.filter_nil]
  | succ n ih =>
    intro i hi
    by_cases hlt : i < tags.length
    · have hn : tags.length - i = (tags.length - (i + 1)) + 1 := by omega
      by_cases hd : (tags.get ⟨i, hlt⟩).isDefunct
      · rw [row_idxs_fwd_unfold tags i hlt, if_pos hd,
          ih (i + 1) (by omega), hn, List.range'_succ, List.filter_cons,
          defunct_at_of_lt tags i hlt, if_neg (by simpa using hd)]
      · rw [row_idxs_fwd_unfold tags i hlt, if_neg hd,
          ih (i + 1) (by omega), hn, List.range'_succ, List.filter_cons,
          defunct_at_of_lt tags i hlt, if_pos (by simpa using hd)]
    · have hn : tags.length - i = 0 := by omega
      rw [row_idxs_fwd_stop tags i hlt, hn, List.range'_zero,
        List.filter_nil]

/-- The descending row enumeration as a reversed filtered interval. -/
theorem row_idxs_bwd_eq_filter (tags : List PageTag) :
    ∀ i, row_idxs_bwd tags i =
      ((List.range' 1 i).filter (fun j => !defunct_at tags j)).reverse := by
  intro i
  induction i with
  | zero => simp [row_idxs_bwd]
  | succ i ih =>
    have hconcat : List.range' 1 (i + 1) = List.range' 1 i ++ [i + 1] := by
      rw [List.range'_concat]
      simp [Nat.one_mul, Nat.add_comm]
    rw [row_idxs_bwd, ih, hconcat, List.filter_append,
      List.reverse_append, List.filter_cons]
    by_cases hd : defunct_at tags (i + 1) <;> simp [hd]

/-- Walking a page's tags downward from `length - 1` enumerates exactly the
ascending data-row indices, reversed. -/
theorem row_idxs_bwd_rev (tags : List PageTag) :
    row_idxs_bwd tags (tags.length - 1) = (row_idxs_fwd tags 1).reverse := by
  rw [row_idxs_bwd_eq_filter,
    row_idxs_fwd_eq_filter tags (tags.length - 1) 1 (Nat.le_refl _)]

/-- The backward defunct-skip loop and the descending row enumeration
agree (for an in-range start index). -/
theorem row_idxs_bwd_spec (tags : List PageTag) :
    ∀ i, i < tags.length →
      (row_idxs_bwd tags i = [] → skip_defunct_bwd tags i = some 0)
      ∧ (∀ j tl, row_idxs_bwd tags i = j :: tl →
          skip_defunct_bwd tags i = some j ∧ 0 < j ∧ j ≤ i
            ∧ tl = row_idxs_bwd tags (j - 1)) := by
  intro i
  induction i with
  | zero =>
    intro _
    constructor
    · intro _
      rfl
    · intro j tl h
      cases h
  | succ i ih =>
    intro hlt
    have hget : tags.get? (i + 1) = some (tags.get ⟨i + 1, hlt⟩) :=
      List.get?_eq_get hlt
    have hda : defunct_at tags (i + 1) = (tags.get ⟨i + 1, hlt⟩).isDefunct :=
      defunct_at_of_lt tags (i + 1) hlt
    by_cases hd : (tags.get ⟨i + 1, hlt⟩).isDefunct
    · have h1 : row_idxs_bwd tags (i + 1) = row_idxs_bwd tags i := by
        rw [row_idxs_bwd, hda, if_pos hd]
      have h2 : skip_defunct_bwd tags (i + 1) = skip_defunct_bwd tags i := by
        rw [skip_defunct_bwd, hget]
        exact if_pos hd
      rw [h1, h2]
      have IH := ih (by omega)
      refine ⟨IH.1, fun j tl h => ?_⟩
      obtain ⟨ha, hb, hc, hd2⟩ := IH.2 j tl h
      exact ⟨ha, hb, by omega, hd2⟩
    · have h1 : row_idxs_bwd tags (i + 1) = (i + 1) :: row_idxs_bwd tags i :=
        by rw [row_idxs_bwd, hda, if_neg hd]
      have h2 : skip_defunct_bwd tags (i + 1) = some (i + 1) := by
        rw [skip_defunct_bwd, hget]
        exact if_neg hd
      constructor
      · intro h
        rw [h1] at h
        cases h
      · intro j tl h
        rw [h1] at h
        injection h with hj htl
        subst hj
        exact ⟨h2, by omega, Nat.le_refl _, by simpa using htl.symm⟩

theorem chain_prev_nil_iff (db : Nat → Option DbPage) (p : DbPage) :
    chain_prev db p [] = true ↔ p.previous_page = 0 := by
  simp [chain_prev]

theorem chain_prev_cons_iff (db : Nat → Option DbPage) (p q : DbPage)
    (prevs : List DbPage) :
    chain_prev db p (q :: prevs) = true ↔
      p.previous_page = q.page_number ∧ q.page_number ≠ 0
        ∧ db q.page_number = some q ∧ chain_prev db q prevs = true := by
  simp [chain_prev, and_assoc]

theorem rows_down_cons_of_idxs (p : DbPage) (i : Nat)
    (prevs : List DbPage) (j0 : Nat) (tl0 : List Nat)
    (hri : row_idxs_bwd p.page_tags i = j0 :: tl0) :
    rows_down p i prevs = (p.page_number, j0) ::
      (tl0.map (fun j => (p.page_number, j)) ++ chain_rows_bwd prevs) := by
  simp [rows_down, hri]

theorem rows_down_skip_page (p : DbPage) (i : Nat) (q : DbPage)
    (prevs : List DbPage) (hri : row_idxs_bwd p.page_tags i = []) :
    rows_down p i (q :: prevs) =
      rows_down q (q.page_tags.length - 1) prevs := by
  simp [rows_down, hri, chain_rows_bwd, page_rows_bwd]

/-- What `move_prev_loop` returns, in terms of the remaining rows walking
backward. -/
theorem move_prev_loop_spec (db : Nat → Option DbPage) :
    ∀ (prevs : List DbPage) (p : DbPage) (i fuel : Nat),
      chain_prev db p prevs = true → i < p.page_tags.length →
      (∀ r ∈ prevs, 1 ≤ r.page_tags.length) →
      prevs.length + 1 ≤ fuel →
      (rows_down p i prevs = [] →
        ∃ m, move_prev_loop db fuel p i =
          some (false, chain_last p prevs, m))
      ∧ (∀ pn j tl, rows_down p i prevs = (pn, j) :: tl →
          ∃ q prevs2, move_prev_loop db fuel p i = some (true, q, j)
            ∧ q.page_number = pn
            ∧ 0 < j ∧ j < q.page_tags.length
            ∧ chain_prev db q prevs2 = true
            ∧ prevs2.length ≤ prevs.length
            ∧ (∀ r ∈ prevs2, 1 ≤ r.page_tags.length)
            ∧ rows_down q (j - 1) prevs2 = tl
            ∧ chain_last q prevs2 = chain_last p prevs) := by
  intro prevs
  induction prevs with
  | nil =>
    intro p i fuel hc hi htags hf
    obtain ⟨g, rfl⟩ : ∃ g, fuel = g + 1 := ⟨fuel - 1, by omega⟩
    have hprev0 := (chain_prev_nil_iff db p).mp hc
    constructor
    · intro hrows
      have hri : row_idxs_bwd p.page_tags i = [] := by
        simpa [rows_down, chain_rows_bwd] using hrows
      have hskip := (row_idxs_bwd_spec p.page_tags i hi).1 hri
      refine ⟨0, ?_⟩
      simp only [move_prev_loop, hskip]
      rw [if_neg (by omega), if_neg (by simp [hprev0])]
      rfl
    · intro pn j tl hrows
      cases hri : row_idxs_bwd p.page_tags i with
      | nil =>
        have hempty : rows_down p i [] = [] := by
          simp [rows_down, hri, chain_rows_bwd]
        rw [hempty] at hrows
        cases hrows
      | cons j0 tl0 =>
        rw [rows_down_cons_of_idxs p i [] j0 tl0 hri] at hrows
        injection hrows with h1 h2
        obtain ⟨rfl, rfl⟩ := Prod.mk.inj h1
        have hskip := (row_idxs_bwd_spec p.page_tags i hi).2 j0 tl0 hri
        refine ⟨p, [], ?_, rfl, hskip.2.1, by omega, hc, Nat.le_refl _,
          htags, ?_, rfl⟩
        · simp only [move_prev_loop, hskip.1]
          rw [if_pos hskip.2.1]
        · have hgoal : rows_down p (j0 - 1) [] =
              tl0.map (fun j => (p.page_number, j)) ++ chain_rows_bwd [] :=
            by simp only [rows_down, ← hskip.2.2.2]
          rw [hgoal]
          exact h2
  | cons qq prevs ih =>
    intro p i fuel hc hi htags hf
    obtain ⟨g, rfl⟩ : ∃ g, fuel = g + 1 := ⟨fuel - 1, by omega⟩
    obtain ⟨hprev, hqn, hdbq, hcq⟩ := (chain_prev_cons_iff db p qq prevs).mp
      hc
    have hq1 : 1 ≤ qq.page_tags.length := htags qq (by simp)
    have htags2 : ∀ r ∈ prevs, 1 ≤ r.page_tags.length := fun r hr =>
      htags r (by simp [hr])
    cases hri : row_idxs_bwd p.page_tags i with
    | cons j0 tl0 =>
      have hskip := (row_idxs_bwd_spec p.page_tags i hi).2 j0 tl0 hri
      have hloop : move_prev_loop db (g + 1) p i = some (true, p, j0) := by
        simp only [move_prev_loop, hskip.1]
        rw [if_pos hskip.2.1]
      constructor
      · intro hrows
        rw [rows_down_cons_of_idxs p i (qq :: prevs) j0 tl0 hri] at hrows
        cases hrows
      · intro pn j tl hrows
        rw [rows_down_cons_of_idxs p i (qq :: prevs) j0 tl0 hri] at hrows
        injection hrows with h1 h2
        obtain ⟨rfl, rfl⟩ := Prod.mk.inj h1
        refine ⟨p, qq :: prevs, hloop, rfl, hskip.2.1, by omega, hc,
          Nat.le_refl _, htags, ?_, rfl⟩
        have hgoal : rows_down p (j0 - 1) (qq :: prevs) =
            tl0.map (fun j => (p.page_number, j)) ++
              chain_rows_bwd (qq :: prevs) := by
          simp only [rows_down, ← hskip.2.2.2]
        rw [hgoal]
        exact h2
    | nil =>
      have hskip := (row_idxs_bwd_spec p.page_tags i hi).1 hri
      have hcross : move_prev_loop db (g + 1) p i =
          move_prev_loop db g qq (qq.page_tags.length - 1) := by
        simp only [move_prev_loop, hskip]
        rw [if_neg (by omega), if_pos (hprev ▸ hqn), hprev]
        simp only [hdbq]
        rw [wsub_usize_one qq.page_tags.length hq1]
      have hrw := rows_down_skip_page p i qq prevs hri
      have hg : prevs.length + 1 ≤ g := by
        simp only [List.length_cons] at hf
        omega
      have IH := ih qq (qq.page_tags.length - 1) g hcq (by omega) htags2 hg
      constructor
      · intro hrows
        rw [hrw] at hrows
        obtain ⟨m, hm⟩ := IH.1 hrows
        refine ⟨m, ?_⟩
        rw [hcross, hm, chain_last_cons]
      · intro pn j tl hrows
        rw [hrw] at hrows
        obtain ⟨q, prevs2, hm, hqpn, hj0, hjlt, hcq2, hlen2, htags3,
          hrows2, hlast2⟩ := IH.2 pn j tl hrows
        refine ⟨q, prevs2, ?_, hqpn, hj0, hjlt, hcq2, ?_, htags3, hrows2,
          ?_⟩
        · rw [hcross, hm]
        · simp only [List.length_cons]
          omega
        · rw [hlast2, chain_last_cons]

/-- `move_row` with `MovePrevious` on a positioned cursor, reduced to the
inner loop. -/
theorem move_row_prev_eq (db : Nat → Option DbPage) (fuel fdp : Nat)
    (p : DbPage) (jj : Nat) :
    move_row db fuel fdp ⟨some p, jj⟩ ESE_MovePrevious =
      (match move_prev_loop db fuel p (wsub_usize jj 1) with
        | none => none
        | some (true, q, j) =>
          some (true, { current_page := some q, page_tag_index := j })
        | some (false, q, _) =>
          some (false, { current_page := some q, page_tag_index := jj })) :=
  rfl

/-- `move_row` with `MoveLast` on a positioned cursor, reduced to the
next-page walk and the inner loop. -/
theorem move_row_last_eq (db : Nat → Option DbPage) (fuel fdp : Nat)
    (p : DbPage) (jj : Nat) :
    move_row db fuel fdp ⟨some p, jj⟩ ESE_MoveLast =
      (match follow_next_to_last db fuel p with
        | none => none
        | some lastPg =>
          if lastPg.page_tags.length < 2 then
            some (false,
              { current_page := some lastPg, page_tag_index := jj })
          else
            match move_prev_loop db fuel lastPg
                (lastPg.page_tags.length - 1) with
            | none => none
            | some (true, q, j) =>
              some (true, { current_page := some q, page_tag_index := j })
            | some (false, q, _) =>
              some (false,
                { current_page := some q, page_tag_index := jj })) := rfl

/-- Following `next_page` links lands on the chain's last page. -/
theorem follow_next_spec (db : Nat → Option DbPage) :
    ∀ (rest : List DbPage) (p : DbPage) (fuel : Nat),
      chain_next db p rest = true → rest.length ≤ fuel →
      follow_next_to_last db fuel p = some (chain_last p rest) := by
  intro rest
  induction rest with
  | nil =>
    intro p fuel hc _
    have hnext0 := ((chain_next_nil_iff db p).mp hc).2
    cases fuel with
    | zero => simp [follow_next_to_last, hnext0, chain_last]
    | succ g => simp [follow_next_to_last, hnext0, chain_last]
  | cons q rest ih =>
    intro p fuel hc hf
    obtain ⟨g, rfl⟩ : ∃ g, fuel = g + 1 :=
      ⟨fuel - 1, by simp only [List.length_cons] at hf; omega⟩
    obtain ⟨hpn, hnext, hdbq, hcq⟩ := (chain_next_cons_iff db p q rest).mp
      hc
    have hqn : q.page_number ≠ 0 := chain_next_head_ne db q rest hcq
    have hstep : follow_next_to_last db (g + 1) p =
        follow_next_to_last db g q := by
      simp only [follow_next_to_last]
      rw [if_neg (by rw [hnext]; exact hqn), hnext]
      simp only [hdbq]
    have hg : rest.length ≤ g := by
      simp only [List.length_cons] at hf
      omega
    rw [hstep, ih q g hcq hg, chain_last_cons]

/-- The visited rows of `MovePrevious` iteration from a positioned cursor:
one row per remaining backward row, then a `false` step. -/
theorem run_prev_spec (db : Nat → Option DbPage) (fuel fdp : Nat) :
    ∀ (rows : List (Nat × Nat)) (p : DbPage) (jj : Nat)
      (prevs : List DbPage),
      chain_prev db p prevs = true → 1 ≤ jj → jj < p.page_tags.length →
      (∀ r ∈ prevs, 1 ≤ r.page_tags.length) →
      prevs.length + 1 ≤ fuel →
      rows_down p (jj - 1) prevs = rows →
      rows_trace db fuel fdp ⟨some p, jj⟩
          (List.replicate (rows.length + 1) ESE_MovePrevious) =
        some (rows.map some ++ [none]) := by
  intro rows
  induction rows with
  | nil =>
    intro p jj prevs hc hjj hjlt htags hf hrows
    obtain ⟨m, hloop⟩ := (move_prev_loop_spec db prevs p (jj - 1) fuel hc
      (by omega) htags hf).1 hrows
    simp only [List.replicate_succ, List.replicate_zero, rows_trace_cons,
      move_row_prev_eq, wsub_usize_one jj hjj, hloop]
    rfl
  | cons r rows ih =>
    obtain ⟨a, b⟩ := r
    intro p jj prevs hc hjj hjlt htags hf hrows
    obtain ⟨q, prevs2, hloop, hqpn, hb1, hblt, hcq2, hlen2, htags2, hrows2,
      _⟩ := (move_prev_loop_spec db prevs p (jj - 1) fuel hc (by omega)
        htags hf).2 a b rows hrows
    have IH := ih q b prevs2 hcq2 hb1 hblt htags2 (by omega) hrows2
    have e1 : ((a, b) :: rows).length + 1 = rows.length + 1 + 1 := by simp
    rw [e1, List.replicate_succ, rows_trace_cons, move_row_prev_eq,
      wsub_usize_one jj hjj, hloop]
    dsimp only
    rw [IH, hqpn]
    rfl

/-! ## Row reversal across the chain -/

theorem chain_rows_append (a b : List DbPage) :
    chain_rows (a ++ b) = chain_rows a ++ chain_rows b := by
  induction a with
  | nil => simp [chain_rows]
  | cons p ps ih => simp [chain_rows, ih]

theorem page_rows_bwd_rev (p : DbPage) :
    page_rows_bwd p = (page_rows p).reverse := by
  rw [page_rows_bwd, page_rows, row_idxs_bwd_rev, List.map_reverse]

theorem chain_rows_bwd_rev (ps : List DbPage) :
    chain_rows_bwd ps = (chain_rows ps.reverse).reverse := by
  induction ps with
  | nil => simp [chain_rows_bwd, chain_rows]
  | cons p ps ih =>
    rw [chain_rows_bwd, page_rows_bwd_rev, ih, List.reverse_cons,
      chain_rows_append, List.reverse_append]
    simp [chain_rows]

/-- The backward row enumeration starting on the chain's last page is the
reverse of the forward enumeration of the whole chain. -/
theorem rows_down_of_chain (pages back : List DbPage) (last : DbPage)
    (hdecomp : back.reverse ++ [last] = pages) :
    rows_down last (last.page_tags.length - 1) back =
      (chain_rows pages).reverse := by
  rw [← hdecomp, rows_down, chain_rows_append, List.reverse_append,
    chain_rows_bwd_rev]
  congr 1
  have h1 : chain_rows [last] = page_rows last := by simp [chain_rows]
  rw [h1, ← page_rows_bwd_rev, page_rows_bwd]

/-! ## Theorems: C2 (row iteration counts) -/

/-- C2 counterexample: the claim quantifies over every table whose chain of
leaf pages holds exactly N rows.  The chain `pageEmptyHead → pageWithRow`
holds exactly one row, but because its *first* leaf has fewer than two page
tags, `move_row`'s `MoveFirst` branch returns `false` immediately
(ese_parser.rs:96-99) without following `next_page`: the very first call
yields `false`, not one `true` followed by `false`. -/
theorem c2_counterexample :
    chain_rows [pageEmptyHead, pageWithRow] = [(6, 1)]
    ∧ chain_next dbEmptyHead pageEmptyHead [pageWithRow] = true
    ∧ find_first_leaf_page dbEmptyHead 10 5 = some 5
    ∧ run_moves dbEmptyHead 10 5 ⟨none, 0⟩ [ESE_MoveFirst] =
        some [false] := by
  refine ⟨by decide, by decide, by decide, by decide⟩

/-- C2 amended: for every table whose chain of leaf pages holds exactly N
non-defunct data tags at index ≥ 1 — provided its first leaf page carries
at least two page tags — calling `move_row` with `MoveFirst` and then
repeatedly with `MoveNext` returns `true` exactly N times and then `false`
(N + 1 calls in total). -/
theorem c2_row_iteration_amended (db : Nat → Option DbPage)
    (fuel fdp : Nat) (head : DbPage) (rest : List DbPage)
    (hfind : find_first_leaf_page db fuel fdp = some head.page_number)
    (hdb : db head.page_number = some head)
    (hchain : chain_next db head rest = true)
    (hlen : 2 ≤ head.page_tags.length)
    (hfuel : rest.length + 1 ≤ fuel) :
    run_moves db fuel fdp ⟨none, 0⟩
        (ESE_MoveFirst ::
          List.replicate (chain_rows (head :: rest)).length ESE_MoveNext) =
      some (List.replicate (chain_rows (head :: rest)).length true ++
        [false]) := by
  have hfirst : move_row db fuel fdp ⟨none, 0⟩ ESE_MoveFirst =
      (match move_next_loop db fuel head 1 with
        | none => none
        | some (true, q, j) =>
          some (true, { current_page := some q, page_tag_index := j })
        | some (false, q, _) =>
          some (false, { current_page := some q, page_tag_index := 0 })) := by
    unfold move_row move_next_row
    rw [if_pos (Or.inl rfl), if_pos rfl, hfind]
    dsimp only
    rw [hdb]
    dsimp only
    rw [if_neg (by omega)]
  have hrowseq : rows_from head 1 rest = chain_rows (head :: rest) := by
    simp [rows_from, chain_rows, page_rows]
  cases hcr : chain_rows (head :: rest) with
  | nil =>
    have hempty : rows_from head 1 rest = [] := by rw [hrowseq, hcr]
    obtain ⟨m, hloop⟩ :=
      (move_next_loop_spec db rest head 1 fuel hchain hfuel).1 hempty
    simp only [List.length_nil, List.replicate_zero, run_moves_cons,
      hfirst, hloop]
    rfl
  | cons r tlrows =>
    obtain ⟨a, b⟩ := r
    have hconsrows : rows_from head 1 rest = (a, b) :: tlrows := by
      rw [hrowseq, hcr]
    obtain ⟨q, rest2, hloop, hqpn, hcq2, hlen2, hrows2, _⟩ :=
      (move_next_loop_spec db rest head 1 fuel hchain hfuel).2 a b tlrows
        hconsrows
    have HR := run_next_spec db fuel fdp tlrows q b rest2 hcq2 (by omega)
      hrows2
    rw [List.length_cons, run_moves_cons, hfirst, hloop]
    dsimp only
    rw [HR.1]
    rfl

/-- Witness for `c2_row_iteration_amended`: the spec's concrete scenario —
ten rows spread over two leaf pages linked by `next_page`; `MoveFirst` plus
nine `MoveNext` calls return `true` ten times, the eleventh call returns
`false`. -/
theorem c2_row_iteration_witness :
    run_moves dbTenRows 10 11 ⟨none, 0⟩
        (ESE_MoveFirst :: List.replicate 10 ESE_MoveNext) =
      some (List.replicate 10 true ++ [false]) := by
  have H := c2_row_iteration_amended dbTenRows 10 11 pageTen1 [pageTen2]
    (by decide) (by decide) (by decide) (by decide) (by decide)
  have hN : (chain_rows (pageTen1 :: [pageTen2])).length = 10 := by decide
  rw [hN] at H
  exact H

/-! ## Theorems: C4 (backward iteration mirrors forward iteration) -/

/-- C4 counterexample: the claim states that for every non-empty table,
`MoveLast` reaches the last leaf and positions on the last non-defunct
tag, and that `MoveLast` + `MovePrevious` visits the forward rows in
reverse.  The chain `pageTrailHead → pageTrailEmpty` holds one row (on its
first leaf), but `move_row`'s `MoveLast` follows `next_page` to the last
leaf, finds fewer than two tags there, and returns `false` immediately
(ese_parser.rs:134-137) — it never positions on any row, so the backward
trace is empty while the forward trace is not. -/
theorem c4_counterexample :
    chain_rows [pageTrailHead, pageTrailEmpty] = [(21, 1)]
    ∧ rows_trace dbTrailEmpty 10 21 ⟨none, 0⟩
        [ESE_MoveFirst, ESE_MoveLast] = some [some (21, 1), none] :=
  ⟨by decide, by decide⟩

/-- C4 amended: on a chain of leaf pages whose first and last leaves carry
at least two page tags, `MoveFirst` + repeated `MoveNext` visits exactly
the chain's rows in order, and `MoveLast` (from the freshly positioned
cursor) + repeated `MovePrevious` visits exactly the same rows in reverse
order, each trace ending with a `false` call once no further row is
available. -/
theorem c4_reverse_iteration_amended (db : Nat → Option DbPage)
    (fuel fdp : Nat) (head last : DbPage) (rest back : List DbPage)
    (hfind : find_first_leaf_page db fuel fdp = some head.page_number)
    (hdb : db head.page_number = some head)
    (hchainN : chain_next db head rest = true)
    (hdecomp : back.reverse ++ [last] = head :: rest)
    (hchainP : chain_prev db last back = true)
    (htagsB : ∀ r ∈ back, 1 ≤ r.page_tags.length)
    (hheadlen : 2 ≤ head.page_tags.length)
    (hlastlen : 2 ≤ last.page_tags.length)
    (hfuel : rest.length + 2 ≤ fuel)
    (r0 : Nat × Nat) (tl : List (Nat × Nat))
    (hrows : chain_rows (head :: rest) = r0 :: tl) :
    rows_trace db fuel fdp ⟨none, 0⟩
        (ESE_MoveFirst ::
          List.replicate (chain_rows (head :: rest)).length ESE_MoveNext) =
      some ((chain_rows (head :: rest)).map some ++ [none])
    ∧ rows_trace db fuel fdp ⟨none, 0⟩
        (ESE_MoveFirst :: ESE_MoveLast ::
          List.replicate (chain_rows (head :: rest)).length
            ESE_MovePrevious) =
      some (some r0 ::
        ((chain_rows (head :: rest)).reverse.map some ++ [none])) := by
  have hfirst : move_row db fuel fdp ⟨none, 0⟩ ESE_MoveFirst =
      (match move_next_loop db fuel head 1 with
        | none => none
        | some (true, q, j) =>
          some (true, { current_page := some q, page_tag_index := j })
        | some (false, q, _) =>
          some (false, { current_page := some q, page_tag_index := 0 })) := by
    unfold move_row move_next_row
    rw [if_pos (Or.inl rfl), if_pos rfl, hfind]
    dsimp only
    rw [hdb]
    dsimp only
    rw [if_neg (by omega)]
  have hlast : chain_last head rest = last := by
    have h1 : (head :: rest).getLastD head = last := by
      rw [← hdecomp]
      exact List.getLastD_concat _ _ _
    rw [List.getLastD_cons] at h1
    exact h1
  have hback_len : back.length = rest.length := by
    have := congrArg List.length hdecomp
    simp at this
    omega
  have hrowseq : rows_from head 1 rest = chain_rows (head :: rest) := by
    simp [rows_from, chain_rows, page_rows]
  obtain ⟨a0, b0⟩ := r0
  have hconsrows : rows_from head 1 rest = (a0, b0) :: tl := by
    rw [hrowseq, hrows]
  obtain ⟨q0, rest2, hloop0, hq0pn, hcq2, hlen2, hrows2, hlast2⟩ :=
    (move_next_loop_spec db rest head 1 fuel hchainN (by omega)).2 a0 b0 tl
      hconsrows
  constructor
  · have HF := run_next_spec db fuel fdp tl q0 b0 rest2 hcq2 (by omega)
      hrows2
    rw [hrows, List.length_cons, rows_trace_cons, hfirst, hloop0]
    dsimp only
    rw [HF.2, hq0pn]
    rfl
  · have hfollow : follow_next_to_last db fuel q0 = some last := by
      rw [follow_next_spec db rest2 q0 fuel hcq2 (by omega), hlast2, hlast]
    have hRrev : rows_down last (last.page_tags.length - 1) back =
        (chain_rows (head :: rest)).reverse :=
      rows_down_of_chain (head :: rest) back last hdecomp
    have hRne : (chain_rows (head :: rest)).reverse ≠ [] := by
      rw [hrows]
      simp
    obtain ⟨rL, tlR, hRcons⟩ :=
      List.exists_cons_of_ne_nil hRne
    have hRlen : tlR.length = tl.length := by
      have := congrArg List.length hRcons
      rw [List.length_reverse, hrows] at this
      simpa using this.symm
    obtain ⟨aL, bL⟩ := rL
    obtain ⟨qL, prevs2, hloopL, hqLpn, hbL1, hbLlt, hcp2, hplen2, htags2,
      hrows2b, _⟩ :=
      (move_prev_loop_spec db back last (last.page_tags.length - 1) fuel
        hchainP (by omega) htagsB (by omega)).2 aL bL tlR
        (by rw [hRrev, hRcons])
    have HB := run_prev_spec db fuel fdp tlR qL bL prevs2 hcp2 hbL1 hbLlt
      htags2 (by omega) hrows2b
    rw [hrows, List.length_cons, ← hRlen, rows_trace_cons, hfirst, hloop0]
    dsimp only
    rw [rows_trace_cons, move_row_last_eq, hfollow]
    dsimp only
    rw [if_neg (by omega), hloopL]
    dsimp only
    have hRcons2 : ((a0, b0) :: tl).reverse = (aL, bL) :: tlR := by
      rw [← hrows]
      exact hRcons
    rw [HB, hq0pn, hqLpn, hRcons2]
    rfl

/-- Witness for `c4_reverse_iteration_amended`: on the ten-row two-leaf
database, `MoveFirst` + `MoveLast` + ten `MovePrevious` calls visit the ten
rows in reverse order and then report no further row. -/
theorem c4_reverse_iteration_witness :
    rows_trace dbTenRows 10 11 ⟨none, 0⟩
        (ESE_MoveFirst :: ESE_MoveLast ::
          List.replicate 10 ESE_MovePrevious) =
      some (some (11, 1) ::
        ((chain_rows [pageTen1, pageTen2]).reverse.map some ++ [none])) := by
  have H := c4_reverse_iteration_amended dbTenRows 10 11 pageTen1 pageTen2
    [pageTen2] [pageTen1] (by decide) (by decide) (by decide) (by decide)
    (by decide) (by decide) (by decide) (by decide) (by decide) (11, 1)
    [(11, 2), (11, 3), (11, 4), (11, 5), (12, 1), (12, 2), (12, 3),
      (12, 4), (12, 5)] (by decide)
  have hN : (chain_rows (pageTen1 :: [pageTen2])).length = 10 := by decide
  rw [hN] at H
  exact H.2

/-- Witness for `c1_sibling_check_amended` on the concrete broken chain:
both tree walks reject it, the cursor loop crosses it. -/
theorem c1_sibling_check_witness :
    catalog_chain_loop dbBroken 10 pageBrokenA.page_number 1 =
      some (.error .SiblingChainBroken)
    ∧ lv_chain_loop dbBroken 10 pageBrokenA.page_number 1 =
      some (.error .SiblingChainBroken)
    ∧ move_next_loop dbBroken 10 pageBrokenA 2 =
      some (true, pageBrokenB, 1) := by
  have H := c1_sibling_check_amended dbBroken 10 [pageBrokenA] pageBrokenB 1
    (by decide) (by decide) (by decide) (by decide) (by decide)
  exact ⟨H.1 (by decide), H.2.1 (by decide),
    H.2.2 pageBrokenA 2 1 [] (by decide) (by decide) rfl rfl⟩

end EseParser
